import Mathlib

/-!
# Verification of the json-schema-gen schema derivation engine

A shallow embedding, in Lean 4, of the core of `json-schema-gen`, a Go
program that derives JSON Schema documents from parsed Go struct
descriptors.  The embedding covers:

* the parsed type model (`internal/parser/types.go`);
* the validator-rule mapper (`internal/schema/validator.go`):
  tokenization of `validate` tag strings, the rule grammar, and the
  application of each rule to a schema node;
* the schema builder (`internal/schema/{builder,types,refs}.go`):
  field-schema derivation, inline expansion with circular-reference
  detection, the reference tracker, and document assembly;
* the dependency graph (`internal/schema/refs.go`): `TopologicalSort`
  and `DetectCircular`;
* the orchestrating generator (`internal/generator/generator.go`):
  graph construction in forced reference mode, auto-resolution of
  referenced types, cycle checking, dependency-ordered emission.

Go's mutable state is threaded explicitly; machine maps with unordered
iteration are modelled as insertion-ordered association lists; fallible
steps return `Except String`.  Recursions that Go bounds by dynamic
cycle checks are bounded here by an explicit fuel parameter; running
out of fuel is a distinguished error, and theorems about successful
runs are unaffected by it.

Modelling notes on the Go standard library:
* `strconv.ParseFloat` is modelled on decimal literals with optional
  sign, fraction and exponent, plus the `inf`/`infinity`/`nan`
  specials; hexadecimal floats and digit-group underscores are not
  modelled.  Truncation to `uint64` is modelled exactly on the decimal
  value (binary-double rounding is not modelled); for negative or
  non-finite values, where the Go conversion is implementation-defined,
  the model returns 0.
* `strings.TrimSpace` is `trimString`; `strings.ToLower` is
  `lowerAscii` (the program only lowercases Go identifiers).
* `regexp.QuoteMeta` escapes the same metacharacter set as Go.
-/

namespace JsonSchemaGen

/-! ## Type model (`internal/parser/types.go`) -/

/-- `parser.TypeKind`. -/
inductive TypeKind where
  | primitive
  | struct
  | slice
  | array
  | map
  | pointer
  | interface
  | time
  | duration
  | alias
  | unknown
deriving DecidableEq, Repr

/-- `parser.TypeInfo`.  Recursive through `elemType`/`keyType`, so an
inductive rather than a structure. -/
inductive TypeInfo where
  | mk (kind : TypeKind) (name : String) (packagePath : String) (packageName : String)
      (isPointer : Bool) (elemType : Option TypeInfo) (keyType : Option TypeInfo)
      (isExported : Bool) (underlyingKind : TypeKind) (underlyingName : String)
deriving Repr

def TypeInfo.kind : TypeInfo → TypeKind
  | .mk k _ _ _ _ _ _ _ _ _ => k

def TypeInfo.name : TypeInfo → String
  | .mk _ n _ _ _ _ _ _ _ _ => n

def TypeInfo.packageName : TypeInfo → String
  | .mk _ _ _ p _ _ _ _ _ _ => p

def TypeInfo.elemType : TypeInfo → Option TypeInfo
  | .mk _ _ _ _ _ e _ _ _ _ => e

def TypeInfo.isExported : TypeInfo → Bool
  | .mk _ _ _ _ _ _ _ e _ _ => e

def TypeInfo.underlyingName : TypeInfo → String
  | .mk _ _ _ _ _ _ _ _ _ u => u

/-- `TypeInfo.Underlying`: unwrap pointers transparently. -/
def TypeInfo.underlying : TypeInfo → TypeInfo
  | .mk .pointer _ _ _ _ (some e) _ _ _ _ => e.underlying
  | t => t

/-- `parser.FieldInfo`.  `tags` is the struct-tag map as an association
list (Go map; only looked up by key). -/
structure FieldInfo where
  name : String
  propertyName : String
  type : TypeInfo
  tags : List (String × String)
  doc : String
  isEmbedded : Bool
  omitEmpty : Bool

/-- `parser.StructInfo`, including the `Inline` flag the parser sets
from the `+schema:inline` marker and the generator reads. -/
structure StructInfo where
  name : String
  package : String
  packagePath : String
  fields : List FieldInfo
  doc : String
  filePath : String
  inline : Bool

/-! ## Validator tag tokenization (`splitValidateTag`, `parseValidateTag`) -/

/-- `schema.ValidationRule`. -/
structure ValidationRule where
  name : String
  param : String
deriving DecidableEq, Repr

/-- The loop body of `splitValidateTag`: a rune-wise scan tracking
bracket `depth`; a comma at depth 0 ends the current token, the final
token is appended only if non-empty. -/
def splitValidateTagAux : List Char → Int → List Char → List (List Char) → List (List Char)
  | [], _, cur, parts => if cur = [] then parts else parts ++ [cur]
  | c :: rest, depth, cur, parts =>
    if c = '[' then splitValidateTagAux rest (depth + 1) (cur ++ [c]) parts
    else if c = ']' then splitValidateTagAux rest (depth - 1) (cur ++ [c]) parts
    else if c = ',' then
      if depth = 0 then splitValidateTagAux rest depth [] (parts ++ [cur])
      else splitValidateTagAux rest depth (cur ++ [c]) parts
    else splitValidateTagAux rest depth (cur ++ [c]) parts

/-- `schema.splitValidateTag`: split a validate tag at commas outside
bracketed sub-expressions. -/
def splitValidateTag (tag : String) : List String :=
  (splitValidateTagAux tag.toList 0 [] []).map (fun cs => String.mk cs)

/-- Go `strings.TrimSpace` (drop leading and trailing whitespace). -/
def trimString (s : String) : String :=
  String.mk (((s.toList.dropWhile Char.isWhitespace).reverse.dropWhile Char.isWhitespace).reverse)

/-- ASCII lowercasing (the type names and literals the program
lowercases are Go identifiers / ASCII literals). -/
def lowerAscii (s : String) : String :=
  String.mk (s.toList.map fun c =>
    if 'A' ≤ c ∧ c ≤ 'Z' then Char.ofNat (c.toNat + 32) else c)

/-- Split a token at its first `=` (Go `strings.Index(part, "=")`):
returns the part before it and, when present, the part after it. -/
def splitAtFirstEq : List Char → List Char × Option (List Char)
  | [] => ([], none)
  | c :: rest =>
    if c = '=' then ([], some rest)
    else
      let (n, p) := splitAtFirstEq rest
      (c :: n, p)

/-- `schema.parseValidateTag`: tokenize, trim each token, drop empty
tokens, and split each remaining token into `name` or `name=param` at
the first `=`. -/
def parseValidateTag (tag : String) : List ValidationRule :=
  (splitValidateTag tag).filterMap fun part0 =>
    let part := trimString part0
    if part = "" then none
    else
      match splitAtFirstEq part.toList with
      | (n, some p) => some ⟨String.mk n, String.mk p⟩
      | (n, none) => some ⟨String.mk n, ""⟩

/-! ## Numeric parameter parsing (`strconv.ParseFloat` / `ParseUint`) -/

/-- Numeric value of a digit string (most significant first). -/
def natOfDigits (cs : List Char) : Nat :=
  cs.foldl (fun a c => a * 10 + (c.toNat - 48)) 0

def allDigits (cs : List Char) : Bool :=
  cs.all (·.isDigit)

/-- An optional leading sign; returns (negative, rest). -/
def parseSign : List Char → Bool × List Char
  | '-' :: r => (true, r)
  | '+' :: r => (false, r)
  | cs => (false, cs)

/-- The exponent part after `e`/`E`: an optional sign then digits. -/
def parseExpPart (cs : List Char) : Option Int :=
  let (negE, ds) := parseSign cs
  if ds ≠ [] ∧ allDigits ds then
    some (if negE then -(natOfDigits ds : Int) else (natOfDigits ds : Int))
  else none

/-- A successfully parsed `float64`: either a finite decimal
`(-1)^neg · mant · 10^(exp - scale)` or a non-finite special
(`inf`/`nan`). -/
inductive GoFloat where
  | finite (neg : Bool) (mant : Nat) (scale : Nat) (exp : Int)
  | special
deriving DecidableEq, Repr

/-- Model of `strconv.ParseFloat(s, 64)` (see the module comment for
its scope): `some` exactly when Go reports no error. -/
def parseGoFloat (s : String) : Option GoFloat :=
  let lower := lowerAscii s
  if lower = "inf" ∨ lower = "+inf" ∨ lower = "-inf" ∨ lower = "infinity" ∨
      lower = "+infinity" ∨ lower = "-infinity" ∨ lower = "nan" then
    some .special
  else
    let (neg, cs) := parseSign s.toList
    let ip := cs.takeWhile (·.isDigit)
    let rest1 := cs.dropWhile (·.isDigit)
    match rest1 with
    | [] => if ip = [] then none else some (.finite neg (natOfDigits ip) 0 0)
    | '.' :: rest2 =>
      let fp := rest2.takeWhile (·.isDigit)
      let rest3 := rest2.dropWhile (·.isDigit)
      if ip = [] ∧ fp = [] then none
      else
        match rest3 with
        | [] => some (.finite neg (natOfDigits (ip ++ fp)) fp.length 0)
        | 'e' :: re =>
          (parseExpPart re).map fun e => .finite neg (natOfDigits (ip ++ fp)) fp.length e
        | 'E' :: re =>
          (parseExpPart re).map fun e => .finite neg (natOfDigits (ip ++ fp)) fp.length e
        | _ => none
    | 'e' :: re =>
      if ip = [] then none
      else (parseExpPart re).map fun e => .finite neg (natOfDigits ip) 0 e
    | 'E' :: re =>
      if ip = [] then none
      else (parseExpPart re).map fun e => .finite neg (natOfDigits ip) 0 e
    | _ => none

/-- Go's `uint64(val)` conversion of a parsed float: truncation toward
zero of the decimal value (0 for the implementation-defined negative
and non-finite cases). -/
def GoFloat.truncUint64 : GoFloat → Nat
  | .finite neg mant scale exp =>
    if neg then 0
    else if (scale : Int) ≤ exp then mant * 10 ^ (exp - (scale : Int)).toNat
    else mant / 10 ^ ((scale : Int) - exp).toNat
  | .special => 0

/-- Model of `strconv.ParseUint(s, 10, 64)`. -/
def parseGoUint64 (s : String) : Option Nat :=
  let cs := s.toList
  if cs ≠ [] ∧ allDigits cs ∧ natOfDigits cs < 2 ^ 64 then some (natOfDigits cs) else none

/-! ## Schema node model (the used subset of `jsonschema.Schema`)

The non-recursive scalar fields live in the structure `SchemaCore`;
the recursive fields (`Items`, `AdditionalProperties`, `Properties`)
live in the inductive `JSchema` wrapper.  Empty strings model Go's
unset (`omitempty`) fields; `minimum` and friends hold the
`json.Number` text. -/

structure SchemaCore where
  version : String := ""
  id : String := ""
  title : String := ""
  typ : String := ""
  format : String := ""
  pattern : String := ""
  ref : String := ""
  description : String := ""
  contentEncoding : String := ""
  enum : List String := []
  minimum : String := ""
  maximum : String := ""
  exclusiveMinimum : String := ""
  exclusiveMaximum : String := ""
  minLength : Option Nat := none
  maxLength : Option Nat := none
deriving DecidableEq, Repr

/-- A schema node: scalar core plus the recursive members.
`properties` is the insertion-ordered property map. -/
inductive JSchema where
  | mk (core : SchemaCore) (items : Option JSchema) (additionalProperties : Option JSchema)
      (properties : List (String × JSchema)) (required : List String)

def JSchema.core : JSchema → SchemaCore
  | .mk c _ _ _ _ => c

def JSchema.items : JSchema → Option JSchema
  | .mk _ i _ _ _ => i

def JSchema.additionalProperties : JSchema → Option JSchema
  | .mk _ _ a _ _ => a

def JSchema.properties : JSchema → List (String × JSchema)
  | .mk _ _ _ p _ => p

def JSchema.required : JSchema → List String
  | .mk _ _ _ _ r => r

def JSchema.withCore : JSchema → SchemaCore → JSchema
  | .mk _ i a p r, c => .mk c i a p r

def JSchema.withItems : JSchema → Option JSchema → JSchema
  | .mk c _ a p r, i => .mk c i a p r

/-- A schema with only scalar fields set (the common construction in
the Go code: `&jsonschema.Schema{...}` with scalar literals). -/
def JSchema.base (c : SchemaCore) : JSchema := .mk c none none [] []

/-! ## Validator rule application (`ValidatorMapper.applyRulesToSchema`) -/

/-- `regexp.QuoteMeta` metacharacters. -/
def regexSpecial (c : Char) : Bool :=
  c = '\\' ∨ c = '.' ∨ c = '+' ∨ c = '*' ∨ c = '?' ∨ c = '(' ∨ c = ')' ∨ c = '|' ∨
    c = '[' ∨ c = ']' ∨ c = '\x7b' ∨ c = '\x7d' ∨ c = '^' ∨ c = '$'

/-- `regexp.QuoteMeta`. -/
def quoteMeta (s : String) : String :=
  String.mk (s.toList.foldr (fun c acc => if regexSpecial c then '\\' :: c :: acc else c :: acc) [])

/-- The loop of `strings.Fields`: accumulate maximal non-whitespace
runs (current run held reversed). -/
def goFieldsAux : List Char → List Char → List (List Char)
  | [], cur => if cur = [] then [] else [cur.reverse]
  | c :: rest, cur =>
    if c.isWhitespace then
      if cur = [] then goFieldsAux rest []
      else cur.reverse :: goFieldsAux rest []
    else goFieldsAux rest (c :: cur)

/-- `strings.Fields`: the whitespace-separated words of a string. -/
def goFields (s : String) : List String :=
  (goFieldsAux s.toList []).map String.mk

/-- One iteration of the `applyRulesToSchema` rule loop.  `isString`
and `isNumeric` are computed from the schema type once at entry (the
loop never changes the type, so this matches Go).  The `Bool` is the
accumulated `isRequired`. -/
def applyRuleStep (isString isNumeric : Bool) (acc : SchemaCore × Bool)
    (rule : ValidationRule) : SchemaCore × Bool :=
  let c := acc.1
  let req := acc.2
  match rule.name with
  | "required" => (c, true)
  | "omitempty" => (c, req)
  | "min" =>
    match parseGoFloat rule.param with
    | some v =>
      if isString then ({ c with minLength := some v.truncUint64 }, req)
      else if isNumeric then ({ c with minimum := rule.param }, req)
      else (c, req)
    | none => (c, req)
  | "max" =>
    match parseGoFloat rule.param with
    | some v =>
      if isString then ({ c with maxLength := some v.truncUint64 }, req)
      else if isNumeric then ({ c with maximum := rule.param }, req)
      else (c, req)
    | none => (c, req)
  | "len" =>
    match parseGoUint64 rule.param with
    | some v =>
      if isString then ({ c with minLength := some v, maxLength := some v }, req)
      else (c, req)
    | none => (c, req)
  | "gte" =>
    match parseGoFloat rule.param with
    | some _ => if isNumeric then ({ c with minimum := rule.param }, req) else (c, req)
    | none => (c, req)
  | "lte" =>
    match parseGoFloat rule.param with
    | some _ => if isNumeric then ({ c with maximum := rule.param }, req) else (c, req)
    | none => (c, req)
  | "gt" =>
    match parseGoFloat rule.param with
    | some _ => if isNumeric then ({ c with exclusiveMinimum := rule.param }, req) else (c, req)
    | none => (c, req)
  | "lt" =>
    match parseGoFloat rule.param with
    | some _ => if isNumeric then ({ c with exclusiveMaximum := rule.param }, req) else (c, req)
    | none => (c, req)
  | "email" => ({ c with format := "email" }, req)
  | "url" => ({ c with format := "uri" }, req)
  | "uri" => ({ c with format := "uri" }, req)
  | "http_url" => ({ c with format := "uri" }, req)
  | "uuid" => ({ c with format := "uuid" }, req)
  | "uuid3" => ({ c with format := "uuid" }, req)
  | "uuid4" => ({ c with format := "uuid" }, req)
  | "uuid5" => ({ c with format := "uuid" }, req)
  | "ipv4" => ({ c with format := "ipv4" }, req)
  | "ipv6" => ({ c with format := "ipv6" }, req)
  | "ip" => ({ c with format := "ip" }, req)
  | "datetime" => ({ c with format := "date-time" }, req)
  | "date" => ({ c with format := "date" }, req)
  | "oneof" =>
    let values := goFields rule.param
    if values.length > 0 then ({ c with enum := values }, req) else (c, req)
  | "alpha" => ({ c with pattern := "^[a-zA-Z]+$" }, req)
  | "alphanum" => ({ c with pattern := "^[a-zA-Z0-9]+$" }, req)
  | "alphanumunicode" => ({ c with pattern := "^[\\p\x7bL\x7d\\p\x7bN\x7d]+$" }, req)
  | "alphaunicode" => ({ c with pattern := "^\\p\x7bL\x7d+$" }, req)
  | "numeric" => ({ c with pattern := "^[0-9]+$" }, req)
  | "hexadecimal" => ({ c with pattern := "^[0-9a-fA-F]+$" }, req)
  | "lowercase" => ({ c with pattern := "^[a-z]+$" }, req)
  | "uppercase" => ({ c with pattern := "^[A-Z]+$" }, req)
  | "contains" =>
    if rule.param ≠ "" then ({ c with pattern := quoteMeta rule.param }, req) else (c, req)
  | "startswith" =>
    if rule.param ≠ "" then ({ c with pattern := "^" ++ quoteMeta rule.param }, req) else (c, req)
  | "endswith" =>
    if rule.param ≠ "" then ({ c with pattern := quoteMeta rule.param ++ "$" }, req) else (c, req)
  | "dive" => (c, req)
  | "hostname" => ({ c with format := "hostname" }, req)
  | "fqdn" => ({ c with format := "hostname" }, req)
  | "json" => (c, req)
  | "base64" => ({ c with contentEncoding := "base64" }, req)
  | "ascii" => ({ c with pattern := "^[\\x00-\\x7F]*$" }, req)
  | _ => (c, req)

/-- `applyRulesToSchema` restricted to the scalar core it actually
touches: fold the rule list, reporting whether `required` was seen. -/
def applyRulesToCore (c : SchemaCore) (rules : List ValidationRule) : SchemaCore × Bool :=
  let isString := c.typ = "string"
  let isNumeric := c.typ = "integer" ∨ c.typ = "number"
  rules.foldl (applyRuleStep isString isNumeric) (c, false)

/-- `applyRulesToSchema` on a full schema node. -/
def applyRulesToSchema (s : JSchema) (rules : List ValidationRule) : JSchema × Bool :=
  let (c, req) := applyRulesToCore s.core rules
  (s.withCore c, req)

/-- Go map lookup on a tag association list. -/
def getTag (tags : List (String × String)) (k : String) : Option String :=
  (tags.find? (fun p => p.1 = k)).map (·.2)

/-- `ValidatorMapper.ApplyValidation`: parse the field's `validate`
tag; if the rule list contains `dive` and the schema is an array with
items, apply the rules after the first `dive` to the items schema and
the rules before it to the array schema; otherwise apply all rules to
the schema.  Returns the updated schema and `isRequired`. -/
def ApplyValidation (s : JSchema) (field : FieldInfo) : JSchema × Bool :=
  match getTag field.tags "validate" with
  | none => (s, false)
  | some tag =>
    let rules := parseValidateTag tag
    match rules.findIdx? (fun r => r.name = "dive") with
    | some i =>
      if s.core.typ = "array" then
        match s.items with
        | some it =>
          let it2 := (applyRulesToSchema it (rules.drop (i + 1))).1
          applyRulesToSchema (s.withItems (some it2)) (rules.take i)
        | none => applyRulesToSchema s rules
      else applyRulesToSchema s rules
    | none => applyRulesToSchema s rules

/-! ## Reference tracker (`RefTracker`, `internal/schema/refs.go`)

The tracker's `refs` map is modelled as a first-insertion-ordered list
of names (Go iterates the map in unspecified order when reading it
back; the embedding fixes insertion order).  A `none` tracker models
Go's `nil` tracker pointer. -/

/-- `RefTracker.AddRef`. -/
def addRef (refs : List String) (typeName : String) : List String :=
  if typeName ∈ refs then refs else refs ++ [typeName]

/-- `RefTracker.GetRefPath`: the relative link path for a type name. -/
def GetRefPath (typeName : String) : String :=
  lowerAscii typeName ++ ".schema.json"

/-! ## Association-list maps

Go maps that the program reads by key (struct maps, ordered property
maps) are modelled as association lists; `assocSet` replaces an
existing binding in place (`orderedmap.Set` / map assignment) and
appends a new one. -/

def assocGet {α : Type} (m : List (String × α)) (k : String) : Option α :=
  (m.find? (fun p => p.1 = k)).map (fun p => p.2)

def assocSet {α : Type} (m : List (String × α)) (k : String) (v : α) : List (String × α) :=
  if (m.find? (fun p => p.1 = k)).isSome then
    m.map (fun p => if p.1 = k then (k, v) else p)
  else m ++ [(k, v)]

/-! ## Field-schema derivation (`internal/schema/types.go`) -/

/-- `schema.InlineContext` (without the Go back-pointer to the
builder, which the embedding passes functionally). -/
structure InlineContext where
  enabled : Bool
  parentInline : Bool
  structMap : List (String × StructInfo)
  inProgress : List String

/-- `schema.primitiveToSchema`: JSON Schema (type, format) of a Go
primitive type name. -/
def primitiveToSchema (name : String) : String × String :=
  if name = "string" then ("string", "")
  else if name = "int" ∨ name = "int8" ∨ name = "int16" ∨ name = "int32" ∨ name = "int64" ∨
      name = "uint" ∨ name = "uint8" ∨ name = "uint16" ∨ name = "uint32" ∨ name = "uint64" ∨
      name = "byte" ∨ name = "rune" then ("integer", "")
  else if name = "float32" ∨ name = "float64" then ("number", "")
  else if name = "bool" then ("boolean", "")
  else ("string", "")

/-- Prefix test on character lists (`strings.HasPrefix`, applied to
`type=`). -/
def hasLead : List Char → List Char → Bool
  | [], _ => true
  | _ :: _, [] => false
  | a :: as, b :: bs => a = b ∧ hasLead as bs

/-- `strings.Split` on a single separator character (keeps empty
parts; current part accumulated reversed). -/
def splitOnChar (sep : Char) : List Char → List Char → List (List Char)
  | [], cur => [cur.reverse]
  | c :: rest, cur =>
    if c = sep then cur.reverse :: splitOnChar sep rest []
    else splitOnChar sep rest (c :: cur)

/-- The search loop of `parseSchemaTypeOverride`: first part with the
`type=` lead, stripped. -/
def findTypeOverride : List (List Char) → String
  | [] => ""
  | p :: rest =>
    if hasLead "type=".toList p then String.mk (p.drop 5) else findTypeOverride rest

/-- `schema.parseSchemaTypeOverride`: extract `T` from a
`schema:"type=T"` struct tag. -/
def parseSchemaTypeOverride (schemaTag : String) : String :=
  findTypeOverride ((splitOnChar ',' schemaTag.toList []).map
    (fun cs => (trimString (String.mk cs)).toList))

/-- `schema.shouldInlineStruct`: inline exactly when an inline context
is present and its parent struct prefers inline. -/
def shouldInlineStruct : Option InlineContext → Bool
  | none => false
  | some ctx => ctx.parentInline

/-- Attach the field's doc comment as the description (the common
tail of `BuildFieldSchema`). -/
def applyFieldDoc (field : FieldInfo) (s : JSchema) : JSchema :=
  if field.doc ≠ "" then s.withCore { s.core with description := field.doc } else s

/-! The builder's recursion has two sources: structural descent into a
field's type (bounded by the type tree) and inline expansion jumping
to another struct's fields through the struct map (which Go bounds
dynamically with the in-progress set).  The embedding keeps the first
structural and parameterizes the functions over an `expand` callback
for the second; `inlineStructSchema` then ties the knot with a fuel
bound on inline nesting depth.  Running out of fuel is a distinguished
error that a sufficiently large fuel never produces. -/

/-- The non-recursive cases of `buildElemSchema` (every type whose
`Underlying()` is itself and that does not recurse into an element
type). -/
def buildElemLeaf (expand : String → InlineContext → Except String (Option JSchema))
    (ti : TypeInfo) (refTracker : Option (List String)) (inlineCtx : Option InlineContext) :
    Except String (JSchema × Option (List String)) :=
  match ti.kind with
  | .primitive =>
    let (st, fm) := primitiveToSchema ti.name
    .ok (JSchema.base { typ := st, format := fm }, refTracker)
  | .time => .ok (JSchema.base { typ := "string", format := "date-time" }, refTracker)
  | .duration => .ok (JSchema.base { typ := "string", format := "duration" }, refTracker)
  | .alias =>
    let (st, fm) := primitiveToSchema ti.underlyingName
    .ok (JSchema.base { typ := st, format := fm }, refTracker)
  | .struct =>
    if ti.isExported ∧ ti.packageName = "" then
      if shouldInlineStruct inlineCtx then
        match inlineCtx with
        | some ctx =>
          match expand ti.name ctx with
          | .error e => .error e
          | .ok (some inl) => .ok (inl, refTracker)
          | .ok none => .ok (JSchema.base { typ := "object" }, refTracker)
        | none => .ok (JSchema.base { typ := "object" }, refTracker)
      else
        match refTracker with
        | some rt =>
          .ok (JSchema.base { ref := GetRefPath ti.name }, some (addRef rt ti.name))
        | none => .ok (JSchema.base { typ := "object" }, refTracker)
    else
      .ok (JSchema.base { typ := "object" }, refTracker)
  | .slice => .ok (JSchema.base { typ := "array" }, refTracker)
  | .array => .ok (JSchema.base { typ := "array" }, refTracker)
  | .map => .ok (JSchema.base { typ := "object" }, refTracker)
  | _ => .ok (JSchema.base {}, refTracker)

/-- `schema.buildElemSchema`: schema of a collection element type.
Go first computes `Underlying()` and then switches on the kind; here
the pointer unwrapping is fused into the pattern match (a pointer with
an element recurses on it, exactly `Underlying`), collections with an
element type recurse on it, and all remaining kinds — for which
`Underlying()` is the type itself — are handled by `buildElemLeaf`. -/
def buildElemSchemaWith (expand : String → InlineContext → Except String (Option JSchema)) :
    TypeInfo → Option (List String) → Option InlineContext →
    Except String (JSchema × Option (List String))
  | .mk .pointer _ _ _ _ (some e) _ _ _ _, refTracker, inlineCtx =>
    buildElemSchemaWith expand e refTracker inlineCtx
  | .mk .slice _ _ _ _ (some elem) _ _ _ _, refTracker, inlineCtx =>
    match buildElemSchemaWith expand elem refTracker inlineCtx with
    | .error e => .error e
    | .ok (es, rt2) => .ok (JSchema.mk { typ := "array" } (some es) none [] [], rt2)
  | .mk .array _ _ _ _ (some elem) _ _ _ _, refTracker, inlineCtx =>
    match buildElemSchemaWith expand elem refTracker inlineCtx with
    | .error e => .error e
    | .ok (es, rt2) => .ok (JSchema.mk { typ := "array" } (some es) none [] [], rt2)
  | .mk .map _ _ _ _ (some elem) _ _ _ _, refTracker, inlineCtx =>
    match buildElemSchemaWith expand elem refTracker inlineCtx with
    | .error e => .error e
    | .ok (vs, rt2) => .ok (JSchema.mk { typ := "object" } none (some vs) [] [], rt2)
  | ti, refTracker, inlineCtx => buildElemLeaf expand ti refTracker inlineCtx

/-- The kind dispatch of `BuildFieldSchema` after the override check. -/
def BuildFieldSchemaMainWith (expand : String → InlineContext → Except String (Option JSchema))
    (field : FieldInfo) (refTracker : Option (List String)) (inlineCtx : Option InlineContext) :
    Except String (JSchema × Option (List String)) :=
  let underlying := field.type.underlying
  match underlying.kind with
  | .primitive =>
    let (st, fm) := primitiveToSchema underlying.name
    .ok (applyFieldDoc field (JSchema.base { typ := st, format := fm }), refTracker)
  | .time =>
    .ok (applyFieldDoc field (JSchema.base { typ := "string", format := "date-time" }), refTracker)
  | .duration =>
    .ok (applyFieldDoc field (JSchema.base { typ := "string", format := "duration" }), refTracker)
  | .alias =>
    let (st, fm) := primitiveToSchema underlying.underlyingName
    .ok (applyFieldDoc field (JSchema.base { typ := st, format := fm }), refTracker)
  | .slice =>
    match underlying.elemType with
    | some elem =>
      match buildElemSchemaWith expand elem refTracker inlineCtx with
      | .error e => .error e
      | .ok (es, rt2) =>
        .ok (applyFieldDoc field (JSchema.mk { typ := "array" } (some es) none [] []), rt2)
    | none => .ok (applyFieldDoc field (JSchema.base { typ := "array" }), refTracker)
  | .array =>
    match underlying.elemType with
    | some elem =>
      match buildElemSchemaWith expand elem refTracker inlineCtx with
      | .error e => .error e
      | .ok (es, rt2) =>
        .ok (applyFieldDoc field (JSchema.mk { typ := "array" } (some es) none [] []), rt2)
    | none => .ok (applyFieldDoc field (JSchema.base { typ := "array" }), refTracker)
  | .map =>
    match underlying.elemType with
    | some elem =>
      match buildElemSchemaWith expand elem refTracker inlineCtx with
      | .error e => .error e
      | .ok (vs, rt2) =>
        .ok (applyFieldDoc field (JSchema.mk { typ := "object" } none (some vs) [] []), rt2)
    | none => .ok (applyFieldDoc field (JSchema.base { typ := "object" }), refTracker)
  | .struct =>
    if underlying.isExported ∧ underlying.packageName = "" then
      if shouldInlineStruct inlineCtx then
        match inlineCtx with
        | some ctx =>
          match expand underlying.name ctx with
          | .error e => .error e
          | .ok (some inl) =>
            .ok (applyFieldDoc field
              (JSchema.mk { typ := inl.core.typ, description := inl.core.description }
                none none inl.properties inl.required), refTracker)
          | .ok none =>
            .ok (applyFieldDoc field (JSchema.base { typ := "object" }), refTracker)
        | none =>
          .ok (applyFieldDoc field (JSchema.base { typ := "object" }), refTracker)
      else
        match refTracker with
        | some rt =>
          .ok (applyFieldDoc field (JSchema.base { ref := GetRefPath underlying.name }),
            some (addRef rt underlying.name))
        | none =>
          .ok (applyFieldDoc field (JSchema.base { typ := "object" }), refTracker)
    else
      .ok (applyFieldDoc field (JSchema.base { typ := "object" }), refTracker)
  | .interface =>
    .ok (applyFieldDoc field (JSchema.base {}), refTracker)
  | _ =>
    .ok (applyFieldDoc field (JSchema.base { typ := "string" }), refTracker)

/-- `schema.BuildFieldSchema` (three-argument version with inline
context): the schema-type override check, then the kind dispatch. -/
def BuildFieldSchemaWith (expand : String → InlineContext → Except String (Option JSchema))
    (field : FieldInfo) (refTracker : Option (List String)) (inlineCtx : Option InlineContext) :
    Except String (JSchema × Option (List String)) :=
  match getTag field.tags "schema" with
  | some schemaTag =>
    let o := parseSchemaTypeOverride schemaTag
    if o ≠ "" then .ok (applyFieldDoc field (JSchema.base { typ := o }), refTracker)
    else BuildFieldSchemaMainWith expand field refTracker inlineCtx
  | none => BuildFieldSchemaMainWith expand field refTracker inlineCtx

/-- The shared per-field loop of `BuildSchema`/`buildInlineSchema`:
derive the field schema, apply validation, collect the property
(ordered, replacing duplicates) and the required names. -/
def buildFieldsAuxWith (expand : String → InlineContext → Except String (Option JSchema)) :
    List FieldInfo → Option (List String) → Option InlineContext →
    List (String × JSchema) → List String →
    Except String (List (String × JSchema) × List String × Option (List String))
  | [], rt, _, props, required => .ok (props, required, rt)
  | field :: rest, rt, ctx, props, required =>
    match BuildFieldSchemaWith expand field rt ctx with
    | .error e => .error e
    | .ok (fs, rt2) =>
      let vres := ApplyValidation fs field
      let required2 :=
        if vres.2 ∧ ¬field.omitEmpty then required ++ [field.propertyName] else required
      buildFieldsAuxWith expand rest rt2 ctx (assocSet props field.propertyName vres.1) required2

/-- `Builder.buildInlineSchema`: bare object schema of a struct (no
version/id/title), fields built with a nil tracker. -/
def buildInlineSchemaWith (expand : String → InlineContext → Except String (Option JSchema))
    (si : StructInfo) (ctx : InlineContext) : Except String JSchema :=
  match buildFieldsAuxWith expand si.fields none (some ctx) [] [] with
  | .error e => .error e
  | .ok (props, required, _) =>
    .ok (JSchema.mk { typ := "object", description := si.doc } none none props required)

/-- `schema.inlineStructSchema`: look the referenced struct up in the
struct map (`none` result when absent), fail on a name already being
expanded, and otherwise expand it recursively with the name pushed on
the in-progress set (Go marks before and deletes after the recursive
call, which is exactly a scoped extension).  `fuel` bounds the inline
nesting depth. -/
def inlineStructSchema : Nat → String → InlineContext → Except String (Option JSchema)
  | 0, _, _ => .error "out of fuel"
  | fuel + 1, name, ctx =>
    match assocGet ctx.structMap name with
    | none => .ok none
    | some si =>
      if name ∈ ctx.inProgress then .error ("circular reference detected: " ++ name)
      else
        match buildInlineSchemaWith (inlineStructSchema fuel) si
            { ctx with inProgress := name :: ctx.inProgress } with
        | .error e => .error e
        | .ok s => .ok (some s)

/-- `schema.BuildFieldSchema` with the inline expander instantiated. -/
def BuildFieldSchema (fuel : Nat) (field : FieldInfo) (refTracker : Option (List String))
    (inlineCtx : Option InlineContext) : Except String (JSchema × Option (List String)) :=
  BuildFieldSchemaWith (inlineStructSchema fuel) field refTracker inlineCtx

/-- `schema.buildElemSchema` with the inline expander instantiated. -/
def buildElemSchema (fuel : Nat) (ti : TypeInfo) (refTracker : Option (List String))
    (inlineCtx : Option InlineContext) : Except String (JSchema × Option (List String)) :=
  buildElemSchemaWith (inlineStructSchema fuel) ti refTracker inlineCtx

/-- `Builder.buildInlineSchema` with the inline expander instantiated. -/
def buildInlineSchema (fuel : Nat) (si : StructInfo) (ctx : InlineContext) :
    Except String JSchema :=
  buildInlineSchemaWith (inlineStructSchema fuel) si ctx

/-- The per-field loop with the inline expander instantiated. -/
def buildFieldsAux (fuel : Nat) (fields : List FieldInfo) (refTracker : Option (List String))
    (inlineCtx : Option InlineContext) (props : List (String × JSchema)) (required : List String) :
    Except String (List (String × JSchema) × List String × Option (List String)) :=
  buildFieldsAuxWith (inlineStructSchema fuel) fields refTracker inlineCtx props required

/-! ## Document assembly (`internal/schema/builder.go`) -/

/-- The JSON Schema draft identifier. -/
def JSONSchemaDraft : String := "https://json-schema.org/draft/2020-12/schema"

/-- `schema.Builder`: validator mapper (stateless), `$id` base URL,
and the struct map set by `SetStructMap` (`none` before). -/
structure Builder where
  schemaID : String
  structMap : Option (List (String × StructInfo)) := none

/-- The inline context `BuildSchema` creates: present only when a
struct map is configured, carrying the struct's own inline preference,
with the struct itself marked in progress. -/
def buildCtx (b : Builder) (structInfo : StructInfo) : Option InlineContext :=
  match b.structMap with
  | some m =>
    some { enabled := false, parentInline := structInfo.inline, structMap := m,
           inProgress := [structInfo.name] }
  | none => none

/-- `Builder.BuildSchema`: derive a struct's top-level schema
document.  Returns the document and the updated tracker. -/
def BuildSchema (b : Builder) (structInfo : StructInfo) (refTracker : List String) (fuel : Nat) :
    Except String (JSchema × List String) :=
  match buildFieldsAux fuel structInfo.fields (some refTracker) (buildCtx b structInfo) [] [] with
  | .error e => .error e
  | .ok (props, required, rtOut) =>
    .ok (JSchema.mk
      { version := JSONSchemaDraft
        id := if b.schemaID ≠ "" then
            b.schemaID ++ "/" ++ lowerAscii structInfo.name ++ ".schema.json"
          else ""
        title := structInfo.name
        typ := "object"
        description := structInfo.doc }
      none none props required,
      rtOut.getD refTracker)

/-- `Builder.BuildSchemaWithRefs`: derive with a fresh tracker and the
struct's inline preference forced off, returning the document and the
collected references (used only for dependency discovery). -/
def BuildSchemaWithRefs (b : Builder) (structInfo : StructInfo) (fuel : Nat) :
    Except String (JSchema × List String) :=
  BuildSchema b { structInfo with inline := false } [] fuel

/-! ## Dependency graph (`internal/schema/refs.go`)

`dependencies` is an insertion-ordered association list standing for
the Go map (iterated over in unspecified order in Go; the embedding
fixes first-insertion order). -/

structure DependencyGraph where
  dependencies : List (String × List String)

def NewDependencyGraph : DependencyGraph := ⟨[]⟩

/-- `DependencyGraph.AddDependency`: `dependencies[from] = append(dependencies[from], to)`. -/
def AddDependency (g : DependencyGraph) (src dst : String) : DependencyGraph :=
  if (g.dependencies.find? (fun p => p.1 = src)).isSome then
    ⟨g.dependencies.map (fun p => if p.1 = src then (p.1, p.2 ++ [dst]) else p)⟩
  else ⟨g.dependencies ++ [(src, [dst])]⟩

/-- `DependencyGraph.GetDependencies` (a missing key reads as the
empty list, as for a Go map). -/
def GetDependencies (g : DependencyGraph) (typeName : String) : List String :=
  (assocGet g.dependencies typeName).getD []

/-- An edge of the reference graph. -/
def Edge (g : DependencyGraph) (a b : String) : Prop :=
  b ∈ GetDependencies g a

/-- A non-empty path along reference-graph edges. -/
inductive GPath (g : DependencyGraph) : String → String → Prop where
  | single {a b : String} : Edge g a b → GPath g a b
  | cons {a b c : String} : Edge g a b → GPath g b c → GPath g a c

/-- The graph contains a cycle: a non-empty path from some node to
itself. -/
def HasCycle (g : DependencyGraph) : Prop := ∃ n, GPath g n n

/-- The visiting state of `TopologicalSort`: the `visited` set and the
`result` slice (updated together in Go). -/
structure SortState where
  visited : List String
  result : List String

/-- Iterate a visiting step over a dependency list, propagating
errors (the `for _, dep := range ...` loop of `visit`). -/
def visitFold (step : String → SortState → Except String SortState) :
    List String → SortState → Except String SortState
  | [], st => .ok st
  | d :: rest, st =>
    match step d st with
    | .error e => .error e
    | .ok st2 => visitFold step rest st2

/-- The recursive `visit` of `TopologicalSort`: an already-visited
name is skipped, an in-progress name is a cycle error, and otherwise
the dependencies inside the type set are visited first and the name is
then appended to the result.  Go passes the in-progress set by
marking before and unmarking after the recursion, which is exactly the
scoped extension `name :: inProgress`; `fuel` bounds the recursion
depth, which `TopologicalSort` sizes so that it cannot run out before
a cycle is detected. -/
def sortVisit (g : DependencyGraph) (typeSet : List String) :
    Nat → String → List String → SortState → Except String SortState
  | 0, _, _, _ => .error "out of fuel"
  | fuel + 1, name, inProgress, st =>
    if name ∈ st.visited then .ok st
    else if name ∈ inProgress then
      .error ("circular dependency detected involving type: " ++ name)
    else
      match visitFold (fun dep st2 => sortVisit g typeSet fuel dep (name :: inProgress) st2)
          ((GetDependencies g name).filter (fun dep => dep ∈ typeSet)) st with
      | .error e => .error e
      | .ok st2 => .ok ⟨st2.visited ++ [name], st2.result ++ [name]⟩

/-- `DependencyGraph.TopologicalSort`. -/
def TopologicalSort (g : DependencyGraph) (types : List String) : Except String (List String) :=
  let typeSet := types.dedup
  match visitFold (fun t st => sortVisit g typeSet (typeSet.length + 1) t [] st) types ⟨[], []⟩ with
  | .error e => .error e
  | .ok st => .ok st.result

/-- The cycle reported by `DetectCircular`: the suffix of the current
path from the first occurrence of `name`, closed with `name`. -/
def cycleFrom : List String → String → List String
  | [], _ => []
  | p :: rest, name => if p = name then (p :: rest) ++ [name] else cycleFrom rest name

/-- Iterate the cycle-detecting step over a list, short-circuiting on
a found cycle and threading the visited set. -/
def detectFold (step : String → List String → Except String (Option (List String) × List String)) :
    List String → List String → Except String (Option (List String) × List String)
  | [], visited => .ok (none, visited)
  | d :: rest, visited =>
    match step d visited with
    | .error e => .error e
    | .ok (some cyc, visited2) => .ok (some cyc, visited2)
    | .ok (none, visited2) => detectFold step rest visited2

/-- The recursive `visit` of `DetectCircular`.  Go tracks the
in-progress set and the current path together (marking on entry and
unmarking on exit); the in-progress set is always exactly the set of
names on `path`, so the embedding keeps only the path. -/
def detectVisit (g : DependencyGraph) :
    Nat → String → List String → List String → Except String (Option (List String) × List String)
  | 0, _, _, _ => .error "out of fuel"
  | fuel + 1, name, path, visited =>
    if name ∈ path then .ok (some (cycleFrom path name), visited)
    else if name ∈ visited then .ok (none, visited)
    else
      match detectFold (fun dep vis => detectVisit g fuel dep (path ++ [name]) vis)
          (GetDependencies g name) visited with
      | .error e => .error e
      | .ok (some cyc, visited2) => .ok (some cyc, visited2)
      | .ok (none, visited2) => .ok (none, visited2 ++ [name])

/-- The node universe of a graph (keys plus every dependency). -/
def graphNames (g : DependencyGraph) : List String :=
  (g.dependencies.map Prod.fst ++ (g.dependencies.map Prod.snd).flatten).dedup

/-- `DependencyGraph.DetectCircular`: depth-first search from every
key of the dependency map; `.ok (some cyc)` is Go's `(cycle, true)`,
`.ok none` is `(nil, false)`. -/
def DetectCircular (g : DependencyGraph) : Except String (Option (List String)) :=
  match detectFold (fun k vis => detectVisit g (graphNames g).length.succ k [] vis)
      (g.dependencies.map Prod.fst) [] with
  | .error e => .error e
  | .ok (c, _) => .ok c

/-- Results in which every element's in-set dependencies appear
strictly before it (the ordering guarantee of `TopologicalSort`). -/
inductive GoodList (g : DependencyGraph) (ts : List String) : List String → Prop where
  | nil : GoodList g ts []
  | snoc {res : List String} {n : String} : GoodList g ts res →
      (∀ dep ∈ GetDependencies g n, dep ∈ ts → dep ∈ res) → GoodList g ts (res ++ [n])

/-- The `TopologicalSort` visiting invariant: the visited set and the
result slice hold the same names, well-ordered. -/
def SortInv (g : DependencyGraph) (ts : List String) (st : SortState) : Prop :=
  st.visited = st.result ∧ GoodList g ts st.result

/-- The in-progress list is a chain: each entry has an edge to the
entry pushed after it. -/
def Chain (g : DependencyGraph) : List String → Prop
  | [] => True
  | [_] => True
  | a :: b :: rest => Edge g b a ∧ Chain g (b :: rest)

/-- How many names of `ts` are not yet in progress (the fuel measure
of `sortVisit`). -/
def remCount (ts inP : List String) : Nat :=
  (ts.filter (fun x => decide (x ∉ inP))).length

/-- The `DetectCircular` visiting invariant: the visited set is closed
under edges and none of its members lies on a cycle. -/
def DetInv (g : DependencyGraph) (V : List String) : Prop :=
  (∀ v ∈ V, ∀ d ∈ GetDependencies g v, d ∈ V) ∧ ∀ v ∈ V, ¬GPath g v v

/-! ## Generator pipeline (`internal/generator/generator.go`)

`GenerateFromPaths` after parsing: the annotated structs parsed from
the paths come in as `allStructs`, and `findReferencedStruct` (a
search of the same paths by name) as the association list `findMap`.
Warnings printed with `fmt.Printf` are collected in a log;
`writer.WriteSchema` is modeled as recording the (name, document)
pair.  Go map iteration order is unspecified; the embedding fixes
insertion order throughout. -/

/-- `containsDot`. -/
def containsDot (s : String) : Bool := s.toList.any (fun c => c = '.')

/-- The warning printed when a referenced type cannot be found. -/
def warnNotFound (ref : String) : String :=
  "Warning: referenced type \"" ++ ref ++ "\" not found in parsed files"

/-- The warning printed when a resolved type's references cannot be
analyzed. -/
def warnNoRefs (ref : String) : String :=
  "Warning: could not analyze refs for \"" ++ ref ++ "\""

/-- The mutable state of the auto-resolution loop. -/
structure ResolveState where
  structMap : List (String × StructInfo)
  allStructs : List StructInfo
  allRefs : List String
  resolved : List String
  graph : DependencyGraph
  warnings : List String

/-- The struct lookup map: every parsed struct keyed by name. -/
def initialStructMap (allStructs : List StructInfo) : List (String × StructInfo) :=
  allStructs.foldl (fun m s => assocSet m s.name s) []

/-- The first loop over `allStructs`: collect each struct's references
into the dependency graph and the `allRefs` set (insertion-ordered). -/
def collectRefs (b : Builder) (bfuel : Nat) :
    List StructInfo → DependencyGraph → List String →
    Except String (DependencyGraph × List String)
  | [], g, refs => .ok (g, refs)
  | s :: rest, g, refs =>
    match BuildSchemaWithRefs b s bfuel with
    | .error e => .error ("analyze refs for " ++ s.name ++ ": " ++ e)
    | .ok (_, rs) =>
      collectRefs b bfuel rest (rs.foldl (fun g2 r => AddDependency g2 s.name r) g)
        (rs.foldl addRef refs)

/-- The inner `for _, newRef := range newRefs` loop body of
auto-resolution: a reference not yet in `allRefs` is added and flips
`foundNew`, and every reference adds a graph edge from `ref`. -/
def resolveNewRef (ref : String) (acc : ResolveState × Bool) (nr : String) :
    ResolveState × Bool :=
  if nr ∈ acc.1.allRefs then
    ({ acc.1 with graph := AddDependency acc.1.graph ref nr }, acc.2)
  else
    ({ acc.1 with allRefs := acc.1.allRefs ++ [nr],
                  graph := AddDependency acc.1.graph ref nr }, true)

/-- One auto-resolution pass over a snapshot of `allRefs` (Go iterates
the map while inserting into it, with unspecified coverage of keys
added mid-iteration; the embedding processes them in the next pass).
Returns the new state and the `foundNew` flag. -/
def resolvePass (b : Builder) (bfuel : Nat) (find : String → Option StructInfo) :
    List String → ResolveState → Bool → ResolveState × Bool
  | [], st, foundNew => (st, foundNew)
  | ref :: rest, st, foundNew =>
    if (assocGet st.structMap ref).isSome then resolvePass b bfuel find rest st foundNew
    else if ref ∈ st.resolved then resolvePass b bfuel find rest st foundNew
    else
      let st1 := { st with resolved := st.resolved ++ [ref] }
      if containsDot ref then resolvePass b bfuel find rest st1 foundNew
      else
        match find ref with
        | none =>
          resolvePass b bfuel find rest
            { st1 with warnings := st1.warnings ++ [warnNotFound ref] } foundNew
        | some refStruct =>
          let st2 := { st1 with structMap := assocSet st1.structMap ref refStruct,
                                allStructs := st1.allStructs ++ [refStruct] }
          match BuildSchemaWithRefs b refStruct bfuel with
          | .error _ =>
            resolvePass b bfuel find rest
              { st2 with warnings := st2.warnings ++ [warnNoRefs ref] } foundNew
          | .ok (_, newRefs) =>
            let upd := newRefs.foldl (resolveNewRef ref) (st2, foundNew)
            resolvePass b bfuel find rest upd.1 upd.2

/-- The outer `for \x7b ... if !foundNew break \x7d` loop of
auto-resolution, fuel-bounded: every continuing pass has resolved a
new struct out of `findMap`, so `findMap.length + 1` passes always
reach the fixed point. -/
def resolveLoop (b : Builder) (bfuel : Nat) (find : String → Option StructInfo) :
    Nat → ResolveState → ResolveState
  | 0, st => st
  | n + 1, st =>
    let pr := resolvePass b bfuel find st.allRefs st false
    if pr.2 then resolveLoop b bfuel find n pr.1 else pr.1

/-- Stages 1–2 of `GenerateFromPaths` after parsing: dependency
discovery (before `SetStructMap`, so with no struct map configured)
followed by auto-resolution. -/
def resolveStage (schemaID : String) (allStructs : List StructInfo)
    (findMap : List (String × StructInfo)) (bfuel rfuel : Nat) :
    Except String ResolveState :=
  match collectRefs { schemaID := schemaID } bfuel allStructs NewDependencyGraph [] with
  | .error e => .error e
  | .ok (g0, refs0) =>
    .ok (resolveLoop { schemaID := schemaID } bfuel (assocGet findMap) rfuel
      { structMap := initialStructMap allStructs, allStructs := allStructs,
        allRefs := refs0, resolved := [], graph := g0, warnings := [] })

/-- The result of a generator run: the (name, document) pairs written
in order, the warnings printed, and the error if the run aborted. -/
structure GenResult where
  written : List (String × JSchema)
  warnings : List String
  err : Option String

/-- `refsNeededAsFiles`: every dependency of a non-inline struct. -/
def refsNeededAsFiles (st : ResolveState) : List String :=
  st.allStructs.foldl
    (fun acc s => if s.inline then acc else acc ++ GetDependencies st.graph s.name) []

/-- The write loop of `GenerateFromPaths`: over the sorted type names,
skip names without a struct, skip non-annotated structs not needed as
schema files, and build each remaining struct with a fresh tracker,
aborting on a build error. -/
def writeLoop (b : Builder) (bfuel : Nat) (structMap : List (String × StructInfo))
    (annotated refsNeeded : List String) :
    List String → List (String × JSchema) → List (String × JSchema) × Option String
  | [], acc => (acc, none)
  | tn :: rest, acc =>
    match assocGet structMap tn with
    | none => writeLoop b bfuel structMap annotated refsNeeded rest acc
    | some si =>
      if tn ∉ annotated ∧ tn ∉ refsNeeded then
        writeLoop b bfuel structMap annotated refsNeeded rest acc
      else
        match BuildSchema b si [] bfuel with
        | .error e => (acc, some ("build schema for " ++ tn ++ ": " ++ e))
        | .ok (doc, _) =>
          writeLoop b bfuel structMap annotated refsNeeded rest (acc ++ [(tn, doc)])

/-- Builder fuel for a generator run: inline expansion depth is
bounded by the number of structs the struct map can ever hold. -/
def genBuildFuel (allStructs : List StructInfo) (findMap : List (String × StructInfo)) : Nat :=
  allStructs.length + findMap.length + 2

/-- `GenerateFromPaths` after parsing. -/
def generate (schemaID : String) (allStructs : List StructInfo)
    (findMap : List (String × StructInfo)) : GenResult :=
  if allStructs.isEmpty then ⟨[], [], some "no exported structs found in paths"⟩
  else
    let bfuel := genBuildFuel allStructs findMap
    match resolveStage schemaID allStructs findMap bfuel (findMap.length + 1) with
    | .error e => ⟨[], [], some e⟩
    | .ok st =>
      let b : Builder := { schemaID := schemaID, structMap := some st.structMap }
      match DetectCircular st.graph with
      | .error e => ⟨[], st.warnings, some e⟩
      | .ok (some cyc) =>
        ⟨[], st.warnings,
          some ("circular dependency detected: [" ++ String.intercalate " " cyc ++ "]")⟩
      | .ok none =>
        match TopologicalSort st.graph (st.allStructs.map (fun s => s.name)) with
        | .error e => ⟨[], st.warnings, some ("dependency sort: " ++ e)⟩
        | .ok sorted =>
          let wr := writeLoop b bfuel st.structMap (allStructs.map (fun s => s.name))
            (refsNeededAsFiles st) sorted []
          ⟨wr.1, st.warnings, wr.2⟩

/-! ## Tracker-run characterization

The builder only ever writes to the reference tracker; the schema it
produces never reads tracker state.  `runWith` expresses a result as a
tracker-independent part (schema plus the list of names added, in
order) applied to an initial tracker. -/

/-- Apply a tracker-independent field result to an initial tracker. -/
def runWith (r : Except String (JSchema × List String)) (t : List String) :
    Except String (JSchema × Option (List String)) :=
  match r with
  | .error e => .error e
  | .ok (s, names) => .ok (s, some (names.foldl addRef t))

/-- Apply a tracker-independent fields-loop result to an initial
tracker. -/
def runWithA (r : Except String ((List (String × JSchema) × List String) × List String))
    (t : List String) :
    Except String (List (String × JSchema) × List String × Option (List String)) :=
  match r with
  | .error e => .error e
  | .ok (pr, names) => .ok (pr.1, pr.2, some (names.foldl addRef t))

/-! ## Effective required rules (for C4)

Which rules decide whether a field is required: all of its parsed
rules, except that when the rule list contains `dive` and the field's
structural schema is an array with an items schema, only the rules
before the first `dive` count. -/

/-- The field's structural schema, derived with a fresh tracker (the
structural part is tracker-independent). -/
def fieldStructuralSchema (fuel : Nat) (ctx : Option InlineContext) (f : FieldInfo) :
    Option JSchema :=
  match BuildFieldSchema fuel f (some []) ctx with
  | .ok (fs, _) => some fs
  | .error _ => none

/-- Whether a tag's effective rules, relative to a structural schema
`s`, contain `required`: the rules before the first `dive` when the
rule list contains `dive` and `s` is an array with an items schema,
all of the rules otherwise. -/
def requiredFromRules (s : JSchema) (tag : String) : Bool :=
  let rules := parseValidateTag tag
  let eff :=
    match rules.findIdx? (fun r => r.name = "dive") with
    | some i => if s.core.typ = "array" ∧ s.items.isSome then rules.take i else rules
    | none => rules
  eff.any (fun r => r.name == "required")

/-- Whether the field's effective rules contain `required`. -/
def effectiveRequired (fuel : Nat) (ctx : Option InlineContext) (f : FieldInfo) : Bool :=
  match getTag f.tags "validate" with
  | none => false
  | some tag =>
    match fieldStructuralSchema fuel ctx f with
    | some fs => requiredFromRules fs tag
    | none => false

/-! The schema part of every builder result, and the list of names
the builder adds to the tracker, do not depend on the tracker's prior
contents; this is stated via `runWith`/`runWithA` in the theorems
below. -/

/-! ## Concrete fixtures (used by counterexamples and witnesses) -/

/-- The Go type `string`. -/
def tyString : TypeInfo := .mk .primitive "string" "" "" false none none false .unknown ""

/-- A local exported struct reference type. -/
def tyStructRef (n : String) : TypeInfo := .mk .struct n "" "" false none none true .unknown ""

/-- A slice type. -/
def tySlice (t : TypeInfo) : TypeInfo := .mk .slice "" "" "" false (some t) none false .unknown ""

/-- A field of struct type `Bar` with a format-setting rule
(`validate:"email"`). -/
def exFieldEmailRef : FieldInfo :=
  ⟨"B", "b", tyStructRef "Bar", [("validate", "email")], "", false, false⟩

/-- A one-field struct used for the C2 counterexample. -/
def exStructC2 : StructInfo := ⟨"A", "p", "", [exFieldEmailRef], "", "", false⟩

/-- Its built document. -/
def exRunC2 : Except String (JSchema × List String) :=
  BuildSchema ⟨"", some []⟩ exStructC2 [] 20

def exDocC2 : JSchema := (exRunC2.toOption.map Prod.fst).getD (JSchema.base {})

def exTrkC2 : List String := (exRunC2.toOption.map Prod.snd).getD []

/-- The emitted property schema of field `b`. -/
def exPropC2 : JSchema := (assocGet exDocC2.properties "b").getD (JSchema.base {})

/-- A slice-of-string field tagged `validate:"required,dive,oneof=a b"`. -/
def exFieldDive : FieldInfo :=
  ⟨"Tags", "tags", tySlice tyString, [("validate", "required,dive,oneof=a b")], "", false, false⟩

/-- A one-field struct used for the C3 example. -/
def exStructC3 : StructInfo := ⟨"A", "p", "", [exFieldDive], "", "", false⟩

def exRunC3 : Except String (JSchema × List String) :=
  BuildSchema ⟨"", some []⟩ exStructC3 [] 20

def exDocC3 : JSchema := (exRunC3.toOption.map Prod.fst).getD (JSchema.base {})

def exPropC3 : JSchema := (assocGet exDocC3.properties "tags").getD (JSchema.base {})

/-- The same build as `exRunC3` but with a non-empty initial tracker
(used to witness tracker-independence). -/
def exRunC3seed : Except String (JSchema × List String) :=
  BuildSchema ⟨"", some []⟩ exStructC3 ["seed"] 20

def exDocC3seed : JSchema := (exRunC3seed.toOption.map Prod.fst).getD (JSchema.base {})

/-- A slice-of-string field whose `required` rule sits after `dive`. -/
def exFieldDiveReq : FieldInfo :=
  ⟨"Xs", "xs", tySlice tyString, [("validate", "dive,required")], "", false, false⟩

/-- A one-field struct used for the C4 counterexample. -/
def exStructC4 : StructInfo := ⟨"A", "p", "", [exFieldDiveReq], "", "", false⟩

def exRunC4 : Except String (JSchema × List String) :=
  BuildSchema ⟨"", some []⟩ exStructC4 [] 20

def exDocC4 : JSchema := (exRunC4.toOption.map Prod.fst).getD (JSchema.base {})

/-- A plain field of struct type `B`. -/
def exFieldToB : FieldInfo := ⟨"B", "b", tyStructRef "B", [], "", false, false⟩

/-- A plain field of struct type `A`. -/
def exFieldToA : FieldInfo := ⟨"A", "a", tyStructRef "A", [], "", false, false⟩

/-- Struct `A` referencing `B` (reference mode). -/
def exStructA : StructInfo := ⟨"A", "p", "", [exFieldToB], "", "", false⟩

/-- Struct `B` referencing `A`. -/
def exStructB : StructInfo := ⟨"B", "p", "", [exFieldToA], "", "", false⟩

/-- Struct `A` referencing `B`, marked `+schema:inline`. -/
def exStructAInl : StructInfo := ⟨"A", "p", "", [exFieldToB], "", "", true⟩

/-- A run over the cyclic record set \x7bA→B, B→A\x7d, with one side
of the cycle preferring inline. -/
def exGenC1 : GenResult := generate "" [exStructAInl, exStructB] []

/-- The resolve state of that run. -/
def exStC1 : ResolveState :=
  match resolveStage "" [exStructAInl, exStructB] []
      (genBuildFuel [exStructAInl, exStructB] []) 1 with
  | .ok st => st
  | .error _ => ⟨[], [], [], [], NewDependencyGraph, []⟩

/-- A run where annotated `A` references the unknown local type `B`
(reference mode). -/
def exGenC6 : GenResult := generate "" [exStructA] []

/-- The same failed-lookup run in inline mode. -/
def exGenC6inl : GenResult := generate "" [exStructAInl] []

/-- A resolve state in which the unknown local type `B` is referenced
(the state dependency discovery produces for `[exStructA]`). -/
def exSt0C6 : ResolveState :=
  ⟨[("A", exStructA)], [exStructA], ["B"], [], ⟨[("A", ["B"])]⟩, []⟩

/-- The property emitted for field `b` of the document written for a
struct name in a run. -/
def writtenProp (r : GenResult) (tn pn : String) : JSchema :=
  ((assocGet r.written tn).map (fun d => (assocGet d.properties pn).getD (JSchema.base {}))).getD
    (JSchema.base {})

/-! ## Specification-side splitter (for the C8 refinement) -/

/-- Specification-side tokenizer, written from the spec's grammar
sentence: the rule-string is a comma-separated token list except that
commas inside bracketed sub-expressions do not split.  A comma at
bracket depth zero starts a new token; any other character joins the
current token, adjusting the depth at brackets.  Unlike the
implementation it keeps every token, including a trailing empty one. -/
def splitTopSpec : List Char → Int → List (List Char)
  | [], _ => [[]]
  | c :: rest, depth =>
    if c = ',' ∧ depth = 0 then [] :: splitTopSpec rest depth
    else
      let d2 := if c = '[' then depth + 1 else if c = ']' then depth - 1 else depth
      match splitTopSpec rest d2 with
      | [] => [[c]]
      | t :: ts => (c :: t) :: ts

/-- Drop a final empty token (the implementation appends the last
token only when non-empty). -/
def trimLastEmpty : List (List Char) → List (List Char)
  | [] => []
  | [x] => if x = [] then [] else [x]
  | x :: y :: xs => x :: trimLastEmpty (y :: xs)

/-- Prepend pending characters onto the first token. -/
def consFirst (cur : List Char) : List (List Char) → List (List Char)
  | [] => [cur]
  | t :: ts => (cur ++ t) :: ts

theorem splitTopSpec_ne_nil (cs : List Char) (depth : Int) : splitTopSpec cs depth ≠ [] := by
  cases cs with
  | nil => simp [splitTopSpec]
  | cons c rest =>
    simp only [splitTopSpec]
    split
    · simp
    · split <;> simp

theorem trimLastEmpty_cons (x : List Char) (l : List (List Char)) (h : l ≠ []) :
    trimLastEmpty (x :: l) = x :: trimLastEmpty l := by
  cases l with
  | nil => exact absurd rfl h
  | cons y ys => rfl

theorem splitTopSpec_exists_cons (cs : List Char) (depth : Int) :
    ∃ t ts, splitTopSpec cs depth = t :: ts := by
  cases h : splitTopSpec cs depth with
  | nil => exact absurd h (splitTopSpec_ne_nil _ _)
  | cons t ts => exact ⟨t, ts, rfl⟩

theorem splitValidateTagAux_eq_spec (cs : List Char) : ∀ (depth : Int) (cur : List Char)
    (parts : List (List Char)),
    splitValidateTagAux cs depth cur parts =
      parts ++ trimLastEmpty (consFirst cur (splitTopSpec cs depth)) := by
  induction cs with
  | nil =>
    intro depth cur parts
    simp only [splitValidateTagAux, splitTopSpec, consFirst]
    by_cases h : cur = []
    · subst h; simp [trimLastEmpty]
    · simp [trimLastEmpty, h]
  | cons c rest ih =>
    intro depth cur parts
    by_cases hbl : c = '['
    · subst hbl
      have e1 : splitValidateTagAux ('[' :: rest) depth cur parts =
          splitValidateTagAux rest (depth + 1) (cur ++ ['[']) parts := by
        simp [splitValidateTagAux]
      obtain ⟨t, ts, hts⟩ := splitTopSpec_exists_cons rest (depth + 1)
      have e2 : splitTopSpec ('[' :: rest) depth = ('[' :: t) :: ts := by
        simp [splitTopSpec, hts]
      rw [e1, ih, e2, hts]
      simp [consFirst]
    · by_cases hbr : c = ']'
      · subst hbr
        have e1 : splitValidateTagAux (']' :: rest) depth cur parts =
            splitValidateTagAux rest (depth - 1) (cur ++ [']']) parts := by
          simp [splitValidateTagAux]
        obtain ⟨t, ts, hts⟩ := splitTopSpec_exists_cons rest (depth - 1)
        have e2 : splitTopSpec (']' :: rest) depth = (']' :: t) :: ts := by
          simp [splitTopSpec, hts]
        rw [e1, ih, e2, hts]
        simp [consFirst]
      · by_cases hc : c = ','
        · subst hc
          by_cases hd : depth = 0
          · subst hd
            have e1 : splitValidateTagAux (',' :: rest) 0 cur parts =
                splitValidateTagAux rest 0 [] (parts ++ [cur]) := by
              simp [splitValidateTagAux]
            obtain ⟨t, ts, hts⟩ := splitTopSpec_exists_cons rest 0
            have e2 : splitTopSpec (',' :: rest) 0 = [] :: t :: ts := by
              simp [splitTopSpec, hts]
            rw [e1, ih, e2, hts]
            simp [consFirst, trimLastEmpty]
          · have e1 : splitValidateTagAux (',' :: rest) depth cur parts =
                splitValidateTagAux rest depth (cur ++ [',']) parts := by
              simp [splitValidateTagAux, hd]
            obtain ⟨t, ts, hts⟩ := splitTopSpec_exists_cons rest depth
            have e2 : splitTopSpec (',' :: rest) depth = (',' :: t) :: ts := by
              simp [splitTopSpec, hts, hd]
            rw [e1, ih, e2, hts]
            simp [consFirst]
        · have e1 : splitValidateTagAux (c :: rest) depth cur parts =
              splitValidateTagAux rest depth (cur ++ [c]) parts := by
            simp [splitValidateTagAux, hbl, hbr, hc]
          obtain ⟨t, ts, hts⟩ := splitTopSpec_exists_cons rest depth
          have e2 : splitTopSpec (c :: rest) depth = (c :: t) :: ts := by
            simp [splitTopSpec, hts, hbl, hbr, hc]
          rw [e1, ih, e2, hts]
          simp [consFirst]

/-! ## Theorems -/

/-- C8: for every rule-string, tokenization splits exactly at the
commas outside bracketed sub-expressions — `splitValidateTag` agrees
with the specification-side depth-zero-comma splitter (up to the
implementation's dropping of a trailing empty token) — and each token
is split into `name`/`name=param` at its first `=`: the name part
contains no `=`, and when a parameter is present the token is exactly
`name ++ "=" ++ param`. -/
theorem C8_tokenization_splits_at_top_level_commas :
    (∀ tag : String, splitValidateTag tag =
      (trimLastEmpty (splitTopSpec tag.toList 0)).map (fun cs => String.mk cs)) ∧
    (∀ cs : List Char,
      match splitAtFirstEq cs with
      | (n, some p) => cs = n ++ '=' :: p ∧ ('=' : Char) ∉ n
      | (n, none) => cs = n ∧ ('=' : Char) ∉ n) := by
  constructor
  · intro tag
    unfold splitValidateTag
    rw [splitValidateTagAux_eq_spec]
    obtain ⟨t, ts, hts⟩ := splitTopSpec_exists_cons tag.toList 0
    rw [hts]
    simp [consFirst]
  · intro cs
    induction cs with
    | nil => simp [splitAtFirstEq]
    | cons c rest ih =>
      by_cases hc : c = '='
      · subst hc
        simp [splitAtFirstEq]
      · cases hp : splitAtFirstEq rest with
        | mk n p =>
          rw [hp] at ih
          cases p with
          | none =>
            have hstep : splitAtFirstEq (c :: rest) = (c :: n, none) := by
              simp [splitAtFirstEq, hc, hp]
            rw [hstep]
            refine ⟨congrArg (c :: ·) ih.1, ?_⟩
            intro hm
            rcases List.mem_cons.mp hm with h1 | h1
            · exact hc h1.symm
            · exact ih.2 h1
          | some ps =>
            have hstep : splitAtFirstEq (c :: rest) = (c :: n, some ps) := by
              simp [splitAtFirstEq, hc, hp]
            rw [hstep]
            refine ⟨?_, ?_⟩
            · show c :: rest = (c :: n) ++ '=' :: ps
              rw [List.cons_append]
              exact congrArg (c :: ·) ih.1
            · intro hm
              rcases List.mem_cons.mp hm with h1 | h1
              · exact hc h1.symm
              · exact ih.2 h1

theorem applyRuleStep_skip_malformed (isS isN : Bool) (acc : SchemaCore × Bool)
    (r : ValidationRule)
    (hname : r.name = "min" ∨ r.name = "max" ∨ r.name = "gte" ∨ r.name = "lte" ∨
      r.name = "gt" ∨ r.name = "lt")
    (hparam : parseGoFloat r.param = none) :
    applyRuleStep isS isN acc r = acc := by
  obtain ⟨n, p⟩ := r
  simp only at hname hparam
  rcases hname with h | h | h | h | h | h <;> subst h <;>
    simp [applyRuleStep, hparam]

/-- C9: a `min`/`max`/`gte`/`lte`/`gt`/`lt` rule whose parameter does
not parse as a number is silently skipped: applying a rule list with
such a rule inserted anywhere gives exactly the same schema and
required flag as applying the list without it (and rule application
has no error channel at all). -/
theorem C9_malformed_numeric_param_skipped (c : SchemaCore)
    (pre post : List ValidationRule) (r : ValidationRule)
    (hname : r.name = "min" ∨ r.name = "max" ∨ r.name = "gte" ∨ r.name = "lte" ∨
      r.name = "gt" ∨ r.name = "lt")
    (hparam : parseGoFloat r.param = none) :
    applyRulesToCore c (pre ++ r :: post) = applyRulesToCore c (pre ++ post) := by
  unfold applyRulesToCore
  rw [List.foldl_append, List.foldl_append, List.foldl_cons,
    applyRuleStep_skip_malformed _ _ _ _ hname hparam]

/-- Witness for C9 at the concrete malformed rule `min=abc` on a
string-typed schema. -/
theorem C9_malformed_numeric_param_skipped_witness :
    ((("min" : String) = "min" ∨ ("min" : String) = "max" ∨ ("min" : String) = "gte" ∨
        ("min" : String) = "lte" ∨ ("min" : String) = "gt" ∨ ("min" : String) = "lt") ∧
      parseGoFloat "abc" = none) ∧
    applyRulesToCore { typ := "string" } ([] ++ (⟨"min", "abc"⟩ : ValidationRule) :: []) =
      applyRulesToCore { typ := "string" } ([] ++ []) :=
  ⟨⟨Or.inl rfl, by decide⟩,
    C9_malformed_numeric_param_skipped { typ := "string" } [] [] ⟨"min", "abc"⟩
      (Or.inl rfl) (by decide)⟩

/-- C10: a `min=p`/`max=p` rule whose parameter parses as a float sets,
on a string-typed schema, the corresponding length bound to the
truncation of the decimal value to `uint64` (so a fractional parameter
like `2.9` yields the integer truncation 2), while on a numeric-typed
schema it stores the parameter's exact text as the bound. -/
theorem C10_min_max_truncation_vs_text (c : SchemaCore) (p : String) (g : GoFloat)
    (hp : parseGoFloat p = some g) :
    (c.typ = "string" →
      (applyRulesToCore c [⟨"min", p⟩]).1 = { c with minLength := some g.truncUint64 } ∧
      (applyRulesToCore c [⟨"max", p⟩]).1 = { c with maxLength := some g.truncUint64 }) ∧
    ((c.typ = "integer" ∨ c.typ = "number") →
      (applyRulesToCore c [⟨"min", p⟩]).1 = { c with minimum := p } ∧
      (applyRulesToCore c [⟨"max", p⟩]).1 = { c with maximum := p }) := by
  constructor
  · intro hs
    constructor <;> simp [applyRulesToCore, applyRuleStep, hp, hs]
  · intro hn
    have hns : ¬(c.typ = "string") := by
      rcases hn with h | h <;> rw [h] <;> decide
    rcases hn with h | h <;>
      constructor <;> simp [applyRulesToCore, applyRuleStep, hp, hns, h]

/-- Witness for C10 at the concrete parameter `2.9`: minLength becomes
2 on a string schema; minimum becomes the text `2.9` on an integer
schema. -/
theorem C10_min_max_truncation_vs_text_witness :
    parseGoFloat "2.9" = some (GoFloat.finite false 29 1 0) ∧
    (GoFloat.finite false 29 1 0).truncUint64 = 2 ∧
    (applyRulesToCore { typ := "string" } [⟨"min", "2.9"⟩]).1 =
      { ({ typ := "string" } : SchemaCore) with minLength := some 2 } ∧
    (applyRulesToCore { typ := "integer" } [⟨"min", "2.9"⟩]).1 =
      { ({ typ := "integer" } : SchemaCore) with minimum := "2.9" } :=
  ⟨by decide, by decide,
    ((C10_min_max_truncation_vs_text { typ := "string" } "2.9" (GoFloat.finite false 29 1 0)
        (by decide)).1 rfl).1,
    ((C10_min_max_truncation_vs_text { typ := "integer" } "2.9" (GoFloat.finite false 29 1 0)
        (by decide)).2 (Or.inl rfl)).1⟩

/-! ### Rule application preservation lemmas -/

theorem applyRuleStep_spec (isS isN : Bool) (acc : SchemaCore × Bool) (r : ValidationRule) :
    (applyRuleStep isS isN acc r).1.typ = acc.1.typ ∧
    (applyRuleStep isS isN acc r).1.ref = acc.1.ref ∧
    (applyRuleStep isS isN acc r).1.description = acc.1.description ∧
    (applyRuleStep isS isN acc r).2 = (acc.2 || r.name == "required") ∧
    (isS = false →
      (applyRuleStep isS isN acc r).1.minLength = acc.1.minLength ∧
      (applyRuleStep isS isN acc r).1.maxLength = acc.1.maxLength) ∧
    (isN = false →
      (applyRuleStep isS isN acc r).1.minimum = acc.1.minimum ∧
      (applyRuleStep isS isN acc r).1.maximum = acc.1.maximum ∧
      (applyRuleStep isS isN acc r).1.exclusiveMinimum = acc.1.exclusiveMinimum ∧
      (applyRuleStep isS isN acc r).1.exclusiveMaximum = acc.1.exclusiveMaximum) := by
  obtain ⟨c, req⟩ := acc
  obtain ⟨n, p⟩ := r
  unfold applyRuleStep
  dsimp only
  split <;> (try split) <;> (try split) <;> (try split) <;> simp_all

/-! ### Tracker independence of the builder -/

theorem exceptMap_error_iff {α β : Type} (f : α → β) (x : Except String α) (e : String) :
    x.map f = .error e ↔ x = .error e := by
  cases x <;> simp [Except.map]

theorem exceptMap_ok_iff {α β : Type} (f : α → β) (x : Except String α) (b : β) :
    x.map f = .ok b ↔ ∃ a, x = .ok a ∧ f a = b := by
  cases x <;> simp [Except.map]

theorem buildElemSchemaWith_trackIrr_size
    (expand : String → InlineContext → Except String (Option JSchema)) :
    ∀ (N : Nat) (ti : TypeInfo) (ctx : Option InlineContext), sizeOf ti ≤ N →
      ∃ r, ∀ t, buildElemSchemaWith expand ti (some t) ctx = runWith r t := by
  intro N
  induction N with
  | zero =>
    intro ti ctx h
    exfalso
    cases ti
    simp only [TypeInfo.mk.sizeOf_spec] at h
    omega
  | succ N ihN =>
    intro ti ctx hle
    cases ti with
    | mk k nm pp pn ip et kt ex uk un =>
      rcases k with _ | _ | _ | _ | _ | _ | _ | _ | _ | _ | _
      · -- primitive
        rcases hp : primitiveToSchema nm with ⟨st, fm⟩
        exact ⟨.ok (JSchema.base { typ := st, format := fm }, []),
          fun t => by
            rcases et with _ | e <;>
              simp [buildElemSchemaWith, buildElemLeaf, TypeInfo.kind, TypeInfo.name, hp, runWith]⟩
      · -- struct
        by_cases hexp : ex = true ∧ pn = ""
        · cases ctx with
          | none =>
            exact ⟨.ok (JSchema.base { ref := GetRefPath nm }, [nm]),
              fun t => by
                rcases et with _ | e <;>
                  simp [buildElemSchemaWith, buildElemLeaf, TypeInfo.kind, TypeInfo.isExported,
                    TypeInfo.packageName, TypeInfo.name, hexp, shouldInlineStruct, runWith]⟩
          | some c =>
            cases hpi : c.parentInline with
            | false =>
              exact ⟨.ok (JSchema.base { ref := GetRefPath nm }, [nm]),
                fun t => by
                  rcases et with _ | e <;>
                    simp [buildElemSchemaWith, buildElemLeaf, TypeInfo.kind, TypeInfo.isExported,
                      TypeInfo.packageName, TypeInfo.name, hexp, shouldInlineStruct, hpi, runWith]⟩
            | true =>
              cases hres : expand nm c with
              | error e =>
                exact ⟨.error e,
                  fun t => by
                    rcases et with _ | e2 <;>
                      simp [buildElemSchemaWith, buildElemLeaf, TypeInfo.kind, TypeInfo.isExported,
                        TypeInfo.packageName, TypeInfo.name, hexp, shouldInlineStruct, hpi, hres,
                        runWith]⟩
              | ok os =>
                cases os with
                | some inl =>
                  exact ⟨.ok (inl, []),
                    fun t => by
                      rcases et with _ | e2 <;>
                        simp [buildElemSchemaWith, buildElemLeaf, TypeInfo.kind,
                          TypeInfo.isExported, TypeInfo.packageName, TypeInfo.name, hexp,
                          shouldInlineStruct, hpi, hres, runWith]⟩
                | none =>
                  exact ⟨.ok (JSchema.base { typ := "object" }, []),
                    fun t => by
                      rcases et with _ | e2 <;>
                        simp [buildElemSchemaWith, buildElemLeaf, TypeInfo.kind,
                          TypeInfo.isExported, TypeInfo.packageName, TypeInfo.name, hexp,
                          shouldInlineStruct, hpi, hres, runWith]⟩
        · exact ⟨.ok (JSchema.base { typ := "object" }, []),
            fun t => by
              rcases et with _ | e <;>
                simp [buildElemSchemaWith, buildElemLeaf, TypeInfo.kind, TypeInfo.isExported,
                  TypeInfo.packageName, hexp, runWith]⟩
      · -- slice
        rcases et with _ | elem
        · exact ⟨.ok (JSchema.base { typ := "array" }, []),
            fun t => by simp [buildElemSchemaWith, buildElemLeaf, TypeInfo.kind, runWith]⟩
        · obtain ⟨re, hre⟩ := ihN elem ctx (by simp only [TypeInfo.mk.sizeOf_spec, Option.some.sizeOf_spec] at hle; omega)
          cases re with
          | error e =>
            exact ⟨.error e, fun t => by simp [buildElemSchemaWith, hre t, runWith]⟩
          | ok p =>
            exact ⟨.ok (JSchema.mk { typ := "array" } (some p.1) none [] [], p.2),
              fun t => by simp [buildElemSchemaWith, hre t, runWith]⟩
      · -- array
        rcases et with _ | elem
        · exact ⟨.ok (JSchema.base { typ := "array" }, []),
            fun t => by simp [buildElemSchemaWith, buildElemLeaf, TypeInfo.kind, runWith]⟩
        · obtain ⟨re, hre⟩ := ihN elem ctx (by simp only [TypeInfo.mk.sizeOf_spec, Option.some.sizeOf_spec] at hle; omega)
          cases re with
          | error e =>
            exact ⟨.error e, fun t => by simp [buildElemSchemaWith, hre t, runWith]⟩
          | ok p =>
            exact ⟨.ok (JSchema.mk { typ := "array" } (some p.1) none [] [], p.2),
              fun t => by simp [buildElemSchemaWith, hre t, runWith]⟩
      · -- map
        rcases et with _ | elem
        · exact ⟨.ok (JSchema.base { typ := "object" }, []),
            fun t => by simp [buildElemSchemaWith, buildElemLeaf, TypeInfo.kind, runWith]⟩
        · obtain ⟨re, hre⟩ := ihN elem ctx (by simp only [TypeInfo.mk.sizeOf_spec, Option.some.sizeOf_spec] at hle; omega)
          cases re with
          | error e =>
            exact ⟨.error e, fun t => by simp [buildElemSchemaWith, hre t, runWith]⟩
          | ok p =>
            exact ⟨.ok (JSchema.mk { typ := "object" } none (some p.1) [] [], p.2),
              fun t => by simp [buildElemSchemaWith, hre t, runWith]⟩
      · -- pointer
        rcases et with _ | e
        · exact ⟨.ok (JSchema.base {}, []),
            fun t => by simp [buildElemSchemaWith, buildElemLeaf, TypeInfo.kind, runWith]⟩
        · obtain ⟨r, hr⟩ := ihN e ctx (by simp only [TypeInfo.mk.sizeOf_spec, Option.some.sizeOf_spec] at hle; omega)
          exact ⟨r, fun t => hr t⟩
      · -- interface
        exact ⟨.ok (JSchema.base {}, []),
          fun t => by
            rcases et with _ | e <;>
              simp [buildElemSchemaWith, buildElemLeaf, TypeInfo.kind, runWith]⟩
      · -- time
        exact ⟨.ok (JSchema.base { typ := "string", format := "date-time" }, []),
          fun t => by
            rcases et with _ | e <;>
              simp [buildElemSchemaWith, buildElemLeaf, TypeInfo.kind, runWith]⟩
      · -- duration
        exact ⟨.ok (JSchema.base { typ := "string", format := "duration" }, []),
          fun t => by
            rcases et with _ | e <;>
              simp [buildElemSchemaWith, buildElemLeaf, TypeInfo.kind, runWith]⟩
      · -- alias
        rcases hp : primitiveToSchema un with ⟨st, fm⟩
        exact ⟨.ok (JSchema.base { typ := st, format := fm }, []),
          fun t => by
            rcases et with _ | e <;>
              simp [buildElemSchemaWith, buildElemLeaf, TypeInfo.kind, TypeInfo.underlyingName,
                hp, runWith]⟩
      · -- unknown
        exact ⟨.ok (JSchema.base {}, []),
          fun t => by
            rcases et with _ | e <;>
              simp [buildElemSchemaWith, buildElemLeaf, TypeInfo.kind, runWith]⟩

theorem buildElemSchemaWith_trackIrr
    (expand : String → InlineContext → Except String (Option JSchema))
    (ti : TypeInfo) (ctx : Option InlineContext) :
    ∃ r, ∀ t, buildElemSchemaWith expand ti (some t) ctx = runWith r t :=
  buildElemSchemaWith_trackIrr_size expand (sizeOf ti) ti ctx (le_refl _)

theorem BuildFieldSchemaMainWith_trackIrr
    (expand : String → InlineContext → Except String (Option JSchema))
    (field : FieldInfo) (ctx : Option InlineContext) :
    ∃ r, ∀ t, BuildFieldSchemaMainWith expand field (some t) ctx = runWith r t := by
  rcases hk : field.type.underlying.kind with _ | _ | _ | _ | _ | _ | _ | _ | _ | _ | _
  · rcases hp : primitiveToSchema field.type.underlying.name with ⟨st, fm⟩
    exact ⟨.ok (applyFieldDoc field (JSchema.base { typ := st, format := fm }), []),
      fun t => by simp [BuildFieldSchemaMainWith, hk, hp, runWith]⟩
  · by_cases hexp : field.type.underlying.isExported = true ∧
        field.type.underlying.packageName = ""
    · cases ctx with
      | none =>
        exact ⟨.ok (applyFieldDoc field
            (JSchema.base { ref := GetRefPath field.type.underlying.name }),
            [field.type.underlying.name]),
          fun t => by simp [BuildFieldSchemaMainWith, hk, hexp, shouldInlineStruct, runWith]⟩
      | some c =>
        cases hpi : c.parentInline with
        | false =>
          exact ⟨.ok (applyFieldDoc field
              (JSchema.base { ref := GetRefPath field.type.underlying.name }),
              [field.type.underlying.name]),
            fun t => by
              simp [BuildFieldSchemaMainWith, hk, hexp, shouldInlineStruct, hpi, runWith]⟩
        | true =>
          cases hres : expand field.type.underlying.name c with
          | error e =>
            exact ⟨.error e,
              fun t => by
                simp [BuildFieldSchemaMainWith, hk, hexp, shouldInlineStruct, hpi, hres, runWith]⟩
          | ok os =>
            cases os with
            | some inl =>
              exact ⟨.ok (applyFieldDoc field
                  (JSchema.mk { typ := inl.core.typ, description := inl.core.description }
                    none none inl.properties inl.required), []),
                fun t => by
                  simp [BuildFieldSchemaMainWith, hk, hexp, shouldInlineStruct, hpi, hres,
                    runWith]⟩
            | none =>
              exact ⟨.ok (applyFieldDoc field (JSchema.base { typ := "object" }), []),
                fun t => by
                  simp [BuildFieldSchemaMainWith, hk, hexp, shouldInlineStruct, hpi, hres,
                    runWith]⟩
    · exact ⟨.ok (applyFieldDoc field (JSchema.base { typ := "object" }), []),
        fun t => by simp [BuildFieldSchemaMainWith, hk, hexp, runWith]⟩
  · cases helem : field.type.underlying.elemType with
    | none =>
      exact ⟨.ok (applyFieldDoc field (JSchema.base { typ := "array" }), []),
        fun t => by simp [BuildFieldSchemaMainWith, hk, helem, runWith]⟩
    | some elem =>
      obtain ⟨re, hre⟩ := buildElemSchemaWith_trackIrr expand elem ctx
      cases re with
      | error e =>
        exact ⟨.error e, fun t => by simp [BuildFieldSchemaMainWith, hk, helem, hre t, runWith]⟩
      | ok p =>
        exact ⟨.ok (applyFieldDoc field
            (JSchema.mk { typ := "array" } (some p.1) none [] []), p.2),
          fun t => by simp [BuildFieldSchemaMainWith, hk, helem, hre t, runWith]⟩
  · cases helem : field.type.underlying.elemType with
    | none =>
      exact ⟨.ok (applyFieldDoc field (JSchema.base { typ := "array" }), []),
        fun t => by simp [BuildFieldSchemaMainWith, hk, helem, runWith]⟩
    | some elem =>
      obtain ⟨re, hre⟩ := buildElemSchemaWith_trackIrr expand elem ctx
      cases re with
      | error e =>
        exact ⟨.error e, fun t => by simp [BuildFieldSchemaMainWith, hk, helem, hre t, runWith]⟩
      | ok p =>
        exact ⟨.ok (applyFieldDoc field
            (JSchema.mk { typ := "array" } (some p.1) none [] []), p.2),
          fun t => by simp [BuildFieldSchemaMainWith, hk, helem, hre t, runWith]⟩
  · cases helem : field.type.underlying.elemType with
    | none =>
      exact ⟨.ok (applyFieldDoc field (JSchema.base { typ := "object" }), []),
        fun t => by simp [BuildFieldSchemaMainWith, hk, helem, runWith]⟩
    | some elem =>
      obtain ⟨re, hre⟩ := buildElemSchemaWith_trackIrr expand elem ctx
      cases re with
      | error e =>
        exact ⟨.error e, fun t => by simp [BuildFieldSchemaMainWith, hk, helem, hre t, runWith]⟩
      | ok p =>
        exact ⟨.ok (applyFieldDoc field
            (JSchema.mk { typ := "object" } none (some p.1) [] []), p.2),
          fun t => by simp [BuildFieldSchemaMainWith, hk, helem, hre t, runWith]⟩
  · exact ⟨.ok (applyFieldDoc field (JSchema.base { typ := "string" }), []),
      fun t => by simp [BuildFieldSchemaMainWith, hk, runWith]⟩
  · exact ⟨.ok (applyFieldDoc field (JSchema.base {}), []),
      fun t => by simp [BuildFieldSchemaMainWith, hk, runWith]⟩
  · exact ⟨.ok (applyFieldDoc field
        (JSchema.base { typ := "string", format := "date-time" }), []),
      fun t => by simp [BuildFieldSchemaMainWith, hk, runWith]⟩
  · exact ⟨.ok (applyFieldDoc field
        (JSchema.base { typ := "string", format := "duration" }), []),
      fun t => by simp [BuildFieldSchemaMainWith, hk, runWith]⟩
  · rcases hp : primitiveToSchema field.type.underlying.underlyingName with ⟨st, fm⟩
    exact ⟨.ok (applyFieldDoc field (JSchema.base { typ := st, format := fm }), []),
      fun t => by simp [BuildFieldSchemaMainWith, hk, hp, runWith]⟩
  · exact ⟨.ok (applyFieldDoc field (JSchema.base { typ := "string" }), []),
      fun t => by simp [BuildFieldSchemaMainWith, hk, runWith]⟩

theorem BuildFieldSchemaWith_trackIrr
    (expand : String → InlineContext → Except String (Option JSchema))
    (field : FieldInfo) (ctx : Option InlineContext) :
    ∃ r, ∀ t, BuildFieldSchemaWith expand field (some t) ctx = runWith r t := by
  cases htag : getTag field.tags "schema" with
  | none =>
    obtain ⟨r, hr⟩ := BuildFieldSchemaMainWith_trackIrr expand field ctx
    exact ⟨r, fun t => by
      simp only [BuildFieldSchemaWith, htag]
      exact hr t⟩
  | some schemaTag =>
    by_cases ho : parseSchemaTypeOverride schemaTag ≠ ""
    · exact ⟨.ok (applyFieldDoc field
          (JSchema.base { typ := parseSchemaTypeOverride schemaTag }), []),
        fun t => by simp [BuildFieldSchemaWith, htag, ho, runWith]⟩
    · obtain ⟨r, hr⟩ := BuildFieldSchemaMainWith_trackIrr expand field ctx
      exact ⟨r, fun t => by
        simp only [BuildFieldSchemaWith, htag, if_neg ho]
        exact hr t⟩

theorem buildFieldsAuxWith_trackIrr
    (expand : String → InlineContext → Except String (Option JSchema))
    (fields : List FieldInfo) (ctx : Option InlineContext) :
    ∀ props required, ∃ r, ∀ t,
      buildFieldsAuxWith expand fields (some t) ctx props required = runWithA r t := by
  induction fields with
  | nil =>
    intro props required
    exact ⟨.ok ((props, required), []), fun t => rfl⟩
  | cons field rest ih =>
    intro props required
    obtain ⟨rf, hrf⟩ := BuildFieldSchemaWith_trackIrr expand field ctx
    cases rf with
    | error e =>
      exact ⟨.error e, fun t => by simp [buildFieldsAuxWith, hrf t, runWith, runWithA]⟩
    | ok p =>
      obtain ⟨fs, names⟩ := p
      obtain ⟨rr, hrr⟩ := ih (assocSet props field.propertyName (ApplyValidation fs field).1)
        (if (ApplyValidation fs field).2 = true ∧ field.omitEmpty = false then
          required ++ [field.propertyName] else required)
      cases rr with
      | error e =>
        exact ⟨.error e, fun t => by
          simp [buildFieldsAuxWith, hrf t, runWith, runWithA, hrr (names.foldl addRef t)]⟩
      | ok q =>
        exact ⟨.ok (q.1, names ++ q.2), fun t => by
          simp [buildFieldsAuxWith, hrf t, runWith, runWithA, hrr (names.foldl addRef t),
            List.foldl_append]⟩

/-- `BuildSchema` hands its fields loop a `some` tracker, so the
document part of its result is independent of the initial tracker
contents. -/
theorem BuildSchema_trackIrr (b : Builder) (si : StructInfo) (fuel : Nat) (t1 t2 : List String) :
    (BuildSchema b si t1 fuel).map Prod.fst = (BuildSchema b si t2 fuel).map Prod.fst := by
  obtain ⟨r, hr⟩ := buildFieldsAuxWith_trackIrr (inlineStructSchema fuel) si.fields
    (buildCtx b si) [] []
  unfold BuildSchema buildFieldsAux
  rw [hr t1, hr t2]
  cases r with
  | error e => rfl
  | ok q => rfl

/-! ### What rule application can and cannot touch -/

theorem applyRulesFold_spec (isS isN : Bool) (rules : List ValidationRule) :
    ∀ acc : SchemaCore × Bool,
      (rules.foldl (applyRuleStep isS isN) acc).1.typ = acc.1.typ ∧
      (rules.foldl (applyRuleStep isS isN) acc).1.ref = acc.1.ref ∧
      ((rules.foldl (applyRuleStep isS isN) acc).2
        = (acc.2 || rules.any (fun r => r.name == "required"))) ∧
      (isS = false →
        (rules.foldl (applyRuleStep isS isN) acc).1.minLength = acc.1.minLength ∧
        (rules.foldl (applyRuleStep isS isN) acc).1.maxLength = acc.1.maxLength) ∧
      (isN = false →
        (rules.foldl (applyRuleStep isS isN) acc).1.minimum = acc.1.minimum ∧
        (rules.foldl (applyRuleStep isS isN) acc).1.maximum = acc.1.maximum ∧
        (rules.foldl (applyRuleStep isS isN) acc).1.exclusiveMinimum = acc.1.exclusiveMinimum ∧
        (rules.foldl (applyRuleStep isS isN) acc).1.exclusiveMaximum = acc.1.exclusiveMaximum) := by
  induction rules with
  | nil => intro acc; simp
  | cons r rs ih =>
    intro acc
    have hs := applyRuleStep_spec isS isN acc r
    have hr := ih (applyRuleStep isS isN acc r)
    simp only [List.foldl_cons, List.any_cons]
    refine ⟨?_, ?_, ?_, ?_, ?_⟩
    · rw [hr.1, hs.1]
    · rw [hr.2.1, hs.2.1]
    · rw [hr.2.2.1, hs.2.2.2.1, Bool.or_assoc]
    · intro h
      exact ⟨by rw [(hr.2.2.2.1 h).1, (hs.2.2.2.2.1 h).1],
        by rw [(hr.2.2.2.1 h).2, (hs.2.2.2.2.1 h).2]⟩
    · intro h
      refine ⟨?_, ?_, ?_, ?_⟩
      · rw [(hr.2.2.2.2 h).1, (hs.2.2.2.2.2 h).1]
      · rw [(hr.2.2.2.2 h).2.1, (hs.2.2.2.2.2 h).2.1]
      · rw [(hr.2.2.2.2 h).2.2.1, (hs.2.2.2.2.2 h).2.2.1]
      · rw [(hr.2.2.2.2 h).2.2.2, (hs.2.2.2.2.2 h).2.2.2]

theorem applyRulesToCore_spec (c : SchemaCore) (rules : List ValidationRule) :
    (applyRulesToCore c rules).1.typ = c.typ ∧
    (applyRulesToCore c rules).1.ref = c.ref ∧
    ((applyRulesToCore c rules).2 = rules.any (fun r => r.name == "required")) ∧
    (c.typ ≠ "string" →
      (applyRulesToCore c rules).1.minLength = c.minLength ∧
      (applyRulesToCore c rules).1.maxLength = c.maxLength) ∧
    (¬(c.typ = "integer" ∨ c.typ = "number") →
      (applyRulesToCore c rules).1.minimum = c.minimum ∧
      (applyRulesToCore c rules).1.maximum = c.maximum ∧
      (applyRulesToCore c rules).1.exclusiveMinimum = c.exclusiveMinimum ∧
      (applyRulesToCore c rules).1.exclusiveMaximum = c.exclusiveMaximum) := by
  have h := applyRulesFold_spec (decide (c.typ = "string"))
    (decide (c.typ = "integer" ∨ c.typ = "number")) rules (c, false)
  unfold applyRulesToCore
  refine ⟨h.1, h.2.1, by rw [h.2.2.1]; simp, ?_, ?_⟩
  · intro hts
    exact h.2.2.2.1 (by simp [hts])
  · intro htn
    exact h.2.2.2.2 (by simp [htn])

theorem applyRulesToSchema_spec (s : JSchema) (rules : List ValidationRule) :
    (applyRulesToSchema s rules).1.items = s.items ∧
    (applyRulesToSchema s rules).1.additionalProperties = s.additionalProperties ∧
    (applyRulesToSchema s rules).1.properties = s.properties ∧
    (applyRulesToSchema s rules).1.required = s.required ∧
    (applyRulesToSchema s rules).1.core = (applyRulesToCore s.core rules).1 ∧
    (applyRulesToSchema s rules).2 = (applyRulesToCore s.core rules).2 := by
  cases s with
  | mk c i a p r =>
    unfold applyRulesToSchema
    rcases hres : applyRulesToCore (JSchema.mk c i a p r).core rules with ⟨c2, req⟩
    simp [hres, JSchema.withCore, JSchema.core, JSchema.items, JSchema.additionalProperties,
      JSchema.properties, JSchema.required]

/-- `ApplyValidation` never touches the link, and on a schema whose
type is not `array` (so the dive split cannot apply) it keeps the
items, the additional properties, the type, and — type permitting —
the length and numeric bounds. -/
theorem ApplyValidation_preserved (s : JSchema) (field : FieldInfo) :
    (ApplyValidation s field).1.core.ref = s.core.ref ∧
    (s.core.typ ≠ "array" →
      (ApplyValidation s field).1.items = s.items ∧
      (ApplyValidation s field).1.additionalProperties = s.additionalProperties ∧
      (ApplyValidation s field).1.core.typ = s.core.typ ∧
      (s.core.typ ≠ "string" →
        (ApplyValidation s field).1.core.minLength = s.core.minLength ∧
        (ApplyValidation s field).1.core.maxLength = s.core.maxLength) ∧
      (¬(s.core.typ = "integer" ∨ s.core.typ = "number") →
        (ApplyValidation s field).1.core.minimum = s.core.minimum ∧
        (ApplyValidation s field).1.core.maximum = s.core.maximum ∧
        (ApplyValidation s field).1.core.exclusiveMinimum = s.core.exclusiveMinimum ∧
        (ApplyValidation s field).1.core.exclusiveMaximum = s.core.exclusiveMaximum)) := by
  have hwc : ∀ (s2 : JSchema) (x : Option JSchema), (s2.withItems x).core = s2.core := by
    intro s2 x; cases s2; rfl
  have hrefAll : ∀ (s2 : JSchema) (rules : List ValidationRule),
      (applyRulesToSchema s2 rules).1.core.ref = s2.core.ref := by
    intro s2 rules
    rw [(applyRulesToSchema_spec s2 rules).2.2.2.2.1, (applyRulesToCore_spec s2.core rules).2.1]
  have hplain : ∀ rules : List ValidationRule,
      (applyRulesToSchema s rules).1.core.ref = s.core.ref ∧
      (applyRulesToSchema s rules).1.items = s.items ∧
      (applyRulesToSchema s rules).1.additionalProperties = s.additionalProperties ∧
      (applyRulesToSchema s rules).1.core.typ = s.core.typ ∧
      (s.core.typ ≠ "string" →
        (applyRulesToSchema s rules).1.core.minLength = s.core.minLength ∧
        (applyRulesToSchema s rules).1.core.maxLength = s.core.maxLength) ∧
      (¬(s.core.typ = "integer" ∨ s.core.typ = "number") →
        (applyRulesToSchema s rules).1.core.minimum = s.core.minimum ∧
        (applyRulesToSchema s rules).1.core.maximum = s.core.maximum ∧
        (applyRulesToSchema s rules).1.core.exclusiveMinimum = s.core.exclusiveMinimum ∧
        (applyRulesToSchema s rules).1.core.exclusiveMaximum = s.core.exclusiveMaximum) := by
    intro rules
    have hs := applyRulesToSchema_spec s rules
    have hc := applyRulesToCore_spec s.core rules
    refine ⟨hrefAll s rules, hs.1, hs.2.1, by rw [hs.2.2.2.2.1, hc.1], ?_, ?_⟩
    · intro h
      exact ⟨by rw [hs.2.2.2.2.1, (hc.2.2.2.1 h).1], by rw [hs.2.2.2.2.1, (hc.2.2.2.1 h).2]⟩
    · intro h
      refine ⟨?_, ?_, ?_, ?_⟩ <;> rw [hs.2.2.2.2.1]
      · exact (hc.2.2.2.2 h).1
      · exact (hc.2.2.2.2 h).2.1
      · exact (hc.2.2.2.2 h).2.2.1
      · exact (hc.2.2.2.2 h).2.2.2
  unfold ApplyValidation
  cases htag : getTag field.tags "validate" with
  | none => simp
  | some tag =>
    dsimp only
    cases hidx : (parseValidateTag tag).findIdx? (fun r => r.name = "dive") with
    | none =>
      exact ⟨(hplain _).1, fun _ => ⟨(hplain _).2.1, (hplain _).2.2.1, (hplain _).2.2.2.1,
        (hplain _).2.2.2.2.1, (hplain _).2.2.2.2.2⟩⟩
    | some i =>
      dsimp only
      by_cases hta : s.core.typ = "array"
      · rw [if_pos hta]
        cases hit : s.items with
        | some it =>
          refine ⟨?_, fun hne => absurd hta hne⟩
          rw [hrefAll, hwc]
        | none =>
          exact ⟨(hplain _).1, fun hne => absurd hta hne⟩
      · rw [if_neg hta]
        exact ⟨(hplain _).1, fun _ => ⟨(hplain _).2.1, (hplain _).2.2.1, (hplain _).2.2.2.1,
          (hplain _).2.2.2.2.1, (hplain _).2.2.2.2.2⟩⟩

theorem applyFieldDoc_parts (f : FieldInfo) (s : JSchema) :
    (applyFieldDoc f s).core.ref = s.core.ref ∧
    (applyFieldDoc f s).core.typ = s.core.typ ∧
    (applyFieldDoc f s).core.minLength = s.core.minLength ∧
    (applyFieldDoc f s).core.maxLength = s.core.maxLength ∧
    (applyFieldDoc f s).core.minimum = s.core.minimum ∧
    (applyFieldDoc f s).core.maximum = s.core.maximum ∧
    (applyFieldDoc f s).core.exclusiveMinimum = s.core.exclusiveMinimum ∧
    (applyFieldDoc f s).core.exclusiveMaximum = s.core.exclusiveMaximum ∧
    (applyFieldDoc f s).items = s.items ∧
    (applyFieldDoc f s).additionalProperties = s.additionalProperties := by
  cases s with
  | mk c i a p r =>
    unfold applyFieldDoc
    split <;>
      simp [JSchema.withCore, JSchema.core, JSchema.items, JSchema.additionalProperties]

/-- A field schema that carries a link carries nothing else (before
validation-rule application): every branch of the field builder either
leaves the link empty or produces a bare link schema. -/
theorem BuildFieldSchemaMainWith_ref_shape
    (expand : String → InlineContext → Except String (Option JSchema))
    (field : FieldInfo) (rt : Option (List String)) (ctx : Option InlineContext)
    (s : JSchema) (rt2 : Option (List String))
    (hok : BuildFieldSchemaMainWith expand field rt ctx = .ok (s, rt2)) :
    s.core.ref = "" ∨
      (s.core.typ = "" ∧ s.core.minLength = none ∧ s.core.maxLength = none ∧
       s.core.minimum = "" ∧ s.core.maximum = "" ∧ s.core.exclusiveMinimum = "" ∧
       s.core.exclusiveMaximum = "" ∧ s.items = none ∧ s.additionalProperties = none) := by
  unfold BuildFieldSchemaMainWith at hok
  dsimp only at hok
  split at hok <;> (try split at hok) <;> (try split at hok) <;> (try split at hok) <;>
    (try split at hok)
  all_goals cases hok
  all_goals try (left; exact (applyFieldDoc_parts field _).1)
  · right
    have h := applyFieldDoc_parts field
      (JSchema.base { ref := GetRefPath field.type.underlying.name })
    exact ⟨h.2.1, h.2.2.1, h.2.2.2.1, h.2.2.2.2.1, h.2.2.2.2.2.1, h.2.2.2.2.2.2.1,
      h.2.2.2.2.2.2.2.1, h.2.2.2.2.2.2.2.2.1, h.2.2.2.2.2.2.2.2.2⟩

theorem BuildFieldSchemaWith_ref_shape
    (expand : String → InlineContext → Except String (Option JSchema))
    (field : FieldInfo) (rt : Option (List String)) (ctx : Option InlineContext)
    (s : JSchema) (rt2 : Option (List String))
    (hok : BuildFieldSchemaWith expand field rt ctx = .ok (s, rt2)) :
    s.core.ref = "" ∨
      (s.core.typ = "" ∧ s.core.minLength = none ∧ s.core.maxLength = none ∧
       s.core.minimum = "" ∧ s.core.maximum = "" ∧ s.core.exclusiveMinimum = "" ∧
       s.core.exclusiveMaximum = "" ∧ s.items = none ∧ s.additionalProperties = none) := by
  unfold BuildFieldSchemaWith at hok
  split at hok
  · dsimp only at hok
    split at hok
    · simp only [Except.ok.injEq, Prod.mk.injEq] at hok
      obtain ⟨h1, -⟩ := hok
      subst h1
      left
      exact (applyFieldDoc_parts field _).1
    · exact BuildFieldSchemaMainWith_ref_shape expand field rt ctx s rt2 hok
  · exact BuildFieldSchemaMainWith_ref_shape expand field rt ctx s rt2 hok

theorem assocSet_mem {α : Type} (m : List (String × α)) (k : String) (v : α) (nm : String)
    (p : α) (h : (nm, p) ∈ assocSet m k v) : (nm, p) ∈ m ∨ (nm = k ∧ p = v) := by
  unfold assocSet at h
  split at h
  · obtain ⟨q, hq, heq⟩ := List.mem_map.mp h
    by_cases hqk : q.1 = k
    · rw [if_pos hqk] at heq
      right
      exact ⟨(Prod.mk.injEq _ _ _ _ ▸ heq).1.symm, (Prod.mk.injEq _ _ _ _ ▸ heq).2.symm⟩
    · rw [if_neg hqk] at heq
      left
      exact heq ▸ hq
  · rcases List.mem_append.mp h with h1 | h1
    · exact .inl h1
    · right
      have := List.mem_singleton.mp h1
      exact ⟨(Prod.mk.injEq _ _ _ _ ▸ this).1, (Prod.mk.injEq _ _ _ _ ▸ this).2⟩

/-- Every property in the fields-loop output is either inherited from
the accumulator or is the validated field schema of one of the
fields. -/
theorem buildFieldsAuxWith_props_mem
    (expand : String → InlineContext → Except String (Option JSchema))
    (fields : List FieldInfo) :
    ∀ rt ctx props required ps req rt2,
      buildFieldsAuxWith expand fields rt ctx props required = .ok (ps, req, rt2) →
      ∀ nm p, (nm, p) ∈ ps →
        (nm, p) ∈ props ∨
        ∃ field fs rta rtb, field ∈ fields ∧
          BuildFieldSchemaWith expand field rta ctx = .ok (fs, rtb) ∧
          nm = field.propertyName ∧ p = (ApplyValidation fs field).1 := by
  induction fields with
  | nil =>
    intro rt ctx props required ps req rt2 hok nm p hmem
    simp only [buildFieldsAuxWith, Except.ok.injEq, Prod.mk.injEq] at hok
    exact .inl (hok.1 ▸ hmem)
  | cons field rest ih =>
    intro rt ctx props required ps req rt2 hok nm p hmem
    simp only [buildFieldsAuxWith] at hok
    cases hbf : BuildFieldSchemaWith expand field rt ctx with
    | error e => rw [hbf] at hok; simp at hok
    | ok pr =>
      obtain ⟨fs, rtb⟩ := pr
      rw [hbf] at hok
      dsimp only at hok
      rcases ih rtb ctx _ _ ps req rt2 hok nm p hmem with h1 |
        ⟨f2, fs2, rta2, rtb2, hf2, hok2, hnm2, hp2⟩
      · rcases assocSet_mem _ _ _ _ _ h1 with h2 | ⟨hnm, hp⟩
        · exact .inl h2
        · exact .inr ⟨field, fs, rt, rtb, List.mem_cons_self _ _, hbf, hnm, hp⟩
      · exact .inr ⟨f2, fs2, rta2, rtb2, List.mem_cons_of_mem _ hf2, hok2, hnm2, hp2⟩

/-- C2 counterexample: in the built document for a struct whose field
has a local struct type and the rule-string `email`, the emitted
property carries both a link and a format — contradicting the claim
that a linked property carries no format regardless of the rules. -/
theorem C2_linked_property_counterexample :
    exRunC2 = .ok (exDocC2, exTrkC2) ∧
    assocGet exDocC2.properties "b" = some exPropC2 ∧
    exPropC2.core.ref = "bar.schema.json" ∧
    exPropC2.core.format = "email" :=
  ⟨rfl, rfl, rfl, rfl⟩

/-- C2 (amended): a property of a built document that carries a link
carries no type, no length or numeric bound, no items and no
additional-properties schema; however — contrary to the original
claim — format, pattern, enumeration and content-encoding rules from
the field's rule-string do apply to it (see the counterexample). -/
theorem C2_linked_property_structure (b : Builder) (si : StructInfo) (t : List String)
    (fuel : Nat) (d : JSchema) (rt : List String)
    (hok : BuildSchema b si t fuel = .ok (d, rt)) (nm : String) (p : JSchema)
    (hmem : (nm, p) ∈ d.properties) (href : p.core.ref ≠ "") :
    p.core.typ = "" ∧ p.core.minLength = none ∧ p.core.maxLength = none ∧
    p.core.minimum = "" ∧ p.core.maximum = "" ∧ p.core.exclusiveMinimum = "" ∧
    p.core.exclusiveMaximum = "" ∧ p.items = none ∧ p.additionalProperties = none := by
  unfold BuildSchema buildFieldsAux at hok
  cases hfold : buildFieldsAuxWith (inlineStructSchema fuel) si.fields (some t)
      (buildCtx b si) [] [] with
  | error e => rw [hfold] at hok; simp at hok
  | ok trip =>
    obtain ⟨ps, req, rtO⟩ := trip
    rw [hfold] at hok
    simp only [Except.ok.injEq, Prod.mk.injEq] at hok
    obtain ⟨h1, -⟩ := hok
    rw [← h1] at hmem
    have hmem2 : (nm, p) ∈ ps := hmem
    rcases buildFieldsAuxWith_props_mem _ _ _ _ _ _ _ _ _ hfold nm p hmem2 with h0 |
      ⟨f, fs, rta, rtb, hf, hbf, hnm, hp⟩
    · exact absurd h0 (List.not_mem_nil _)
    · subst hp
      have hpref := (ApplyValidation_preserved fs f).1
      have hfsref : fs.core.ref ≠ "" := by rw [← hpref]; exact href
      rcases BuildFieldSchemaWith_ref_shape _ _ _ _ _ _ hbf with h | hsh
      · exact absurd h hfsref
      · obtain ⟨hty, hminL, hmaxL, hmin, hmax, hemin, hemax, hit, hadd⟩ := hsh
        have hna : fs.core.typ ≠ "array" := by rw [hty]; decide
        have hpre := (ApplyValidation_preserved fs f).2 hna
        have hns : fs.core.typ ≠ "string" := by rw [hty]; decide
        have hnn : ¬(fs.core.typ = "integer" ∨ fs.core.typ = "number") := by
          rw [hty]; decide
        refine ⟨by rw [hpre.2.2.1, hty], ?_, ?_, ?_, ?_, ?_, ?_, ?_, ?_⟩
        · rw [(hpre.2.2.2.1 hns).1, hminL]
        · rw [(hpre.2.2.2.1 hns).2, hmaxL]
        · rw [(hpre.2.2.2.2 hnn).1, hmin]
        · rw [(hpre.2.2.2.2 hnn).2.1, hmax]
        · rw [(hpre.2.2.2.2 hnn).2.2.1, hemin]
        · rw [(hpre.2.2.2.2 hnn).2.2.2, hemax]
        · rw [hpre.1, hit]
        · rw [hpre.2.1, hadd]

/-- Witness for the amended C2 at the concrete `email`-on-struct-ref
document. -/
theorem C2_linked_property_structure_witness :
    (BuildSchema ⟨"", some []⟩ exStructC2 [] 20 = .ok (exDocC2, exTrkC2) ∧
      ("b", exPropC2) ∈ exDocC2.properties ∧ exPropC2.core.ref ≠ "") ∧
    (exPropC2.core.typ = "" ∧ exPropC2.core.minLength = none ∧
     exPropC2.core.maxLength = none ∧ exPropC2.core.minimum = "" ∧
     exPropC2.core.maximum = "" ∧ exPropC2.core.exclusiveMinimum = "" ∧
     exPropC2.core.exclusiveMaximum = "" ∧ exPropC2.items = none ∧
     exPropC2.additionalProperties = none) :=
  ⟨⟨rfl, List.mem_cons_self _ _, by decide⟩,
    C2_linked_property_structure ⟨"", some []⟩ exStructC2 [] 20 exDocC2 exTrkC2 rfl
      "b" exPropC2 (List.mem_cons_self _ _) (by decide)⟩

/-! ### The dive split (C3) -/

theorem findIdx?_first_dive (pre post : List ValidationRule) (r : ValidationRule)
    (hr : r.name = "dive") (hpre : ∀ q ∈ pre, ¬ q.name = "dive") :
    (pre ++ r :: post).findIdx? (fun q => q.name = "dive") = some pre.length := by
  induction pre with
  | nil => simp [List.findIdx?_cons, hr]
  | cons a as ih =>
    have ha : ¬ a.name = "dive" := hpre a (List.mem_cons_self _ _)
    have h2 := ih (fun q hq => hpre q (List.mem_cons_of_mem _ hq))
    simp [List.findIdx?_cons, ha, h2]

/-- C3: on the concrete slice-of-string field tagged
`validate:"required,dive,oneof=a b"`, the built document's required
set is exactly the array property's name, the array schema carries no
enumeration, and its items schema has enumeration `a`, `b`; and in
general, when the parsed rule list contains a `dive` and the schema is
an array with an items schema, the rules after the first `dive` are
applied to the items schema and the rules before it to the array
schema itself. -/
theorem C3_dive_split :
    (exRunC3.map (fun pr => pr.1.required) = .ok ["tags"] ∧
      (assocGet exDocC3.properties "tags").isSome = true ∧
      exPropC3.core.enum = [] ∧
      exPropC3.items.map (fun i => i.core.enum) = some ["a", "b"]) ∧
    (∀ (s : JSchema) (field : FieldInfo) (tag : String) (pre post : List ValidationRule)
        (r : ValidationRule) (it : JSchema),
      getTag field.tags "validate" = some tag →
      parseValidateTag tag = pre ++ r :: post →
      r.name = "dive" → (∀ q ∈ pre, ¬ q.name = "dive") →
      s.core.typ = "array" → s.items = some it →
      ApplyValidation s field =
        applyRulesToSchema (s.withItems (some ((applyRulesToSchema it post).1))) pre) := by
  constructor
  · exact ⟨rfl, rfl, rfl, rfl⟩
  · intro s field tag pre post r it htag hparse hr hpre hta hit
    have htake : (pre ++ r :: post).take pre.length = pre := List.take_left pre (r :: post)
    have hdrop : (pre ++ r :: post).drop (pre.length + 1) = post := by
      rw [show pre ++ r :: post = (pre ++ [r]) ++ post by simp,
        show pre.length + 1 = (pre ++ [r]).length by simp,
        List.drop_left]
    unfold ApplyValidation
    rw [htag]
    dsimp only
    rw [hparse, findIdx?_first_dive pre post r hr hpre]
    dsimp only
    rw [if_pos hta, hit]
    dsimp only
    rw [htake, hdrop]

/-- Witness for the general dive-split statement of C3, at the C3
fixture field and a concrete array-of-string schema. -/
theorem C3_dive_split_witness :
    (getTag exFieldDive.tags "validate" = some "required,dive,oneof=a b" ∧
      parseValidateTag "required,dive,oneof=a b" =
        [(⟨"required", ""⟩ : ValidationRule)] ++
          (⟨"dive", ""⟩ : ValidationRule) :: [(⟨"oneof", "a b"⟩ : ValidationRule)]) ∧
    ApplyValidation
        (JSchema.mk { typ := "array" } (some (JSchema.base { typ := "string" })) none [] [])
        exFieldDive =
      applyRulesToSchema
        ((JSchema.mk { typ := "array" } (some (JSchema.base { typ := "string" })) none [] []
            ).withItems (some ((applyRulesToSchema (JSchema.base { typ := "string" })
              [(⟨"oneof", "a b"⟩ : ValidationRule)]).1)))
        [(⟨"required", ""⟩ : ValidationRule)] :=
  ⟨⟨rfl, rfl⟩,
    C3_dive_split.2
      (JSchema.mk { typ := "array" } (some (JSchema.base { typ := "string" })) none [] [])
      exFieldDive "required,dive,oneof=a b"
      [⟨"required", ""⟩] [⟨"oneof", "a b"⟩] ⟨"dive", ""⟩ (JSchema.base { typ := "string" })
      rfl rfl rfl
      (by intro q hq; rw [List.mem_singleton.mp hq]; decide)
      rfl rfl⟩

/-! ### The required set (C4) -/

theorem ApplyValidation_required (s : JSchema) (field : FieldInfo) :
    (ApplyValidation s field).2 =
      match getTag field.tags "validate" with
      | none => false
      | some tag => requiredFromRules s tag := by
  unfold ApplyValidation requiredFromRules
  cases htag : getTag field.tags "validate" with
  | none => rfl
  | some tag =>
    dsimp only
    cases hidx : (parseValidateTag tag).findIdx? (fun r => r.name = "dive") with
    | none =>
      rw [(applyRulesToSchema_spec s _).2.2.2.2.2, (applyRulesToCore_spec s.core _).2.2.1]
    | some i =>
      dsimp only
      by_cases hta : s.core.typ = "array"
      · rw [if_pos hta]
        cases hit : s.items with
        | some it =>
          rw [(applyRulesToSchema_spec _ _).2.2.2.2.2, (applyRulesToCore_spec _ _).2.2.1]
          have hcond : (s.core.typ = "array" ∧ (some it).isSome = true) := ⟨hta, rfl⟩
          rw [if_pos hcond]
        | none =>
          rw [(applyRulesToSchema_spec _ _).2.2.2.2.2, (applyRulesToCore_spec _ _).2.2.1]
          have hcond : ¬(s.core.typ = "array" ∧ (none : Option JSchema).isSome = true) := by
            simp
          rw [if_neg hcond]
      · rw [if_neg hta]
        rw [(applyRulesToSchema_spec _ _).2.2.2.2.2, (applyRulesToCore_spec _ _).2.2.1]
        have hcond : ¬(s.core.typ = "array" ∧ s.items.isSome = true) := by
          intro h; exact hta h.1
        rw [if_neg hcond]

theorem effectiveRequired_eq (fuel : Nat) (ctx : Option InlineContext) (f : FieldInfo)
    (fs : JSchema) (hstruct : fieldStructuralSchema fuel ctx f = some fs) :
    effectiveRequired fuel ctx f = (ApplyValidation fs f).2 := by
  unfold effectiveRequired
  rw [ApplyValidation_required]
  cases htag : getTag f.tags "validate" with
  | none => rfl
  | some tag => rw [hstruct]

/-- The required list produced by the fields loop: the accumulator
followed by the property names of exactly those fields whose effective
rules contain `required` and that are not omit-empty. -/
theorem buildFieldsAux_required_spec (fuel : Nat) (fields : List FieldInfo) :
    ∀ t ctx props required ps req rt2,
      buildFieldsAux fuel fields (some t) ctx props required = .ok (ps, req, rt2) →
      req = required ++ (fields.filter (fun f =>
        effectiveRequired fuel ctx f ∧ ¬f.omitEmpty)).map (fun f => f.propertyName) := by
  induction fields with
  | nil =>
    intro t ctx props required ps req rt2 hok
    simp only [buildFieldsAux, buildFieldsAuxWith, Except.ok.injEq, Prod.mk.injEq] at hok
    simp [← hok.2.1]
  | cons field rest ih =>
    intro t ctx props required ps req rt2 hok
    obtain ⟨rf, hrf⟩ := BuildFieldSchemaWith_trackIrr (inlineStructSchema fuel) field ctx
    unfold buildFieldsAux buildFieldsAuxWith at hok
    rw [hrf t] at hok
    cases rf with
    | error e => simp [runWith] at hok
    | ok p0 =>
      obtain ⟨fs, names⟩ := p0
      simp only [runWith] at hok
      have hstruct : fieldStructuralSchema fuel ctx field = some fs := by
        unfold fieldStructuralSchema BuildFieldSchema
        rw [hrf []]
        rfl
      have heff := effectiveRequired_eq fuel ctx field fs hstruct
      have hrec := ih (names.foldl addRef t) ctx _ _ ps req rt2 hok
      rw [hrec, List.filter_cons]
      cases hreq : (ApplyValidation fs field).2 <;> cases home : field.omitEmpty <;>
        simp [heff, hreq, home, List.append_assoc]

/-- C4 counterexample: a slice-of-string field tagged
`validate:"dive,required"` has `required` among its parsed rules and is
not omit-empty, yet its property name is absent from the built
document's required set (the `required` sits after `dive`, so it is
applied — and discarded — on the items schema). -/
theorem C4_required_after_dive_counterexample :
    exRunC4 = .ok (exDocC4, []) ∧
    (parseValidateTag "dive,required").any (fun r => r.name == "required") = true ∧
    exFieldDiveReq.omitEmpty = false ∧
    exDocC4.required = [] :=
  ⟨rfl, rfl, rfl, rfl⟩

/-- C4 (amended): a field's property name is in the document's
required set iff the field's *effective* rules — all of its rules,
except that when the rule list contains `dive` and the field's schema
is an array with an items schema only the rules before the first
`dive` count — contain `required` and the field is not omit-empty; the
required list is exactly the property names of those fields, in field
order.  In particular a field with both `required` and the
omit-if-empty marker is absent. -/
theorem C4_required_characterization (b : Builder) (si : StructInfo) (t : List String)
    (fuel : Nat) (d : JSchema) (rt : List String)
    (hok : BuildSchema b si t fuel = .ok (d, rt)) :
    d.required = (si.fields.filter (fun f =>
      effectiveRequired fuel (buildCtx b si) f ∧ ¬f.omitEmpty)).map
        (fun f => f.propertyName) := by
  unfold BuildSchema at hok
  cases hfold : buildFieldsAux fuel si.fields (some t) (buildCtx b si) [] [] with
  | error e => rw [hfold] at hok; simp at hok
  | ok trip =>
    obtain ⟨ps, req, rtO⟩ := trip
    rw [hfold] at hok
    simp only [Except.ok.injEq, Prod.mk.injEq] at hok
    obtain ⟨h1, -⟩ := hok
    rw [← h1]
    have hspec := buildFieldsAux_required_spec fuel si.fields t (buildCtx b si) [] [] ps req
      rtO hfold
    simpa [JSchema.required] using hspec

/-- Witness for the amended C4 at the `dive,required` fixture. -/
theorem C4_required_characterization_witness :
    BuildSchema ⟨"", some []⟩ exStructC4 [] 20 = .ok (exDocC4, []) ∧
    exDocC4.required = ((exStructC4.fields.filter (fun f =>
      effectiveRequired 20 (buildCtx ⟨"", some []⟩ exStructC4) f ∧ ¬f.omitEmpty)).map
        (fun f => f.propertyName)) :=
  ⟨rfl, C4_required_characterization ⟨"", some []⟩ exStructC4 [] 20 exDocC4 [] rfl⟩

/-- C7: deriving the same struct twice with the same builder
configuration, struct map, inline preference and fuel yields identical
documents — the document does not depend on the tracker either run
starts with — with, in particular, the same property order, the same
required order, and the same link paths. -/
theorem C7_same_inputs_same_document (b : Builder) (si : StructInfo) (fuel : Nat)
    (t1 t2 : List String) (d1 d2 : JSchema) (r1 r2 : List String)
    (h1 : BuildSchema b si t1 fuel = .ok (d1, r1))
    (h2 : BuildSchema b si t2 fuel = .ok (d2, r2)) :
    d1 = d2 ∧ d1.properties.map Prod.fst = d2.properties.map Prod.fst ∧
    d1.required = d2.required ∧
    d1.properties.map (fun p => p.2.core.ref) = d2.properties.map (fun p => p.2.core.ref) := by
  have h := BuildSchema_trackIrr b si fuel t1 t2
  rw [h1, h2] at h
  simp only [Except.map, Except.ok.injEq] at h
  exact ⟨h, by rw [h], by rw [h], by rw [h]⟩

/-- Witness for C7: the C3 fixture derived twice, once with an empty
tracker and once with a seeded tracker. -/
theorem C7_same_inputs_same_document_witness :
    (exRunC3seed = .ok (exDocC3seed, ["seed"]) ∧ exRunC3 = .ok (exDocC3, [])) ∧
    (exDocC3seed = exDocC3 ∧
      exDocC3seed.properties.map Prod.fst = exDocC3.properties.map Prod.fst ∧
      exDocC3seed.required = exDocC3.required) :=
  ⟨⟨rfl, rfl⟩,
    ⟨(C7_same_inputs_same_document ⟨"", some []⟩ exStructC3 20 ["seed"] [] exDocC3seed
        exDocC3 ["seed"] [] rfl rfl).1,
      (C7_same_inputs_same_document ⟨"", some []⟩ exStructC3 20 ["seed"] [] exDocC3seed
        exDocC3 ["seed"] [] rfl rfl).2.1,
      (C7_same_inputs_same_document ⟨"", some []⟩ exStructC3 20 ["seed"] [] exDocC3seed
        exDocC3 ["seed"] [] rfl rfl).2.2.1⟩⟩

/-! ## Topological sort (C5) -/

theorem gpath_snoc (g : DependencyGraph) {x b a : String} (p : GPath g x b) :
    Edge g b a → GPath g x a := by
  induction p with
  | single e1 => exact fun e => GPath.cons e1 (GPath.single e)
  | cons e1 _ ih => exact fun e => GPath.cons e1 (ih e)

theorem chain_path (g : DependencyGraph) : ∀ (l : List String) (a : String), Chain g (a :: l) →
    ∀ x ∈ l, GPath g x a := by
  intro l
  induction l with
  | nil => intro a _ x hx; exact absurd hx (by simp)
  | cons b rest ih =>
    intro a hch x hx
    simp only [Chain] at hch
    rcases List.mem_cons.mp hx with rfl | hx2
    · exact GPath.single hch.1
    · exact gpath_snoc g (ih b hch.2 x hx2) hch.1

theorem goodList_split (g : DependencyGraph) (ts : List String) {res : List String}
    (h : GoodList g ts res) : ∀ pre m suf, res = pre ++ m :: suf →
    ∀ dep ∈ GetDependencies g m, dep ∈ ts → dep ∈ pre := by
  induction h with
  | nil => intro pre m suf hsplit; exact absurd hsplit (by simp)
  | snoc _ hdeps ih =>
    intro pre m suf hsplit dep hdep hts
    rcases List.eq_nil_or_concat suf with rfl | ⟨suf2, last, rfl⟩
    · obtain ⟨h1, h2⟩ := List.append_inj' hsplit (by simp)
      obtain rfl := (List.cons.injEq _ _ _ _ ▸ h2).1
      exact h1 ▸ hdeps dep hdep hts
    · rw [List.concat_eq_append,
        show pre ++ m :: (suf2 ++ [last]) = (pre ++ m :: suf2) ++ [last] by simp] at hsplit
      obtain ⟨h1, -⟩ := List.append_inj' hsplit (by simp)
      exact ih pre m suf2 h1 dep hdep hts

theorem visitFold_ok_inv (g : DependencyGraph) (ts : List String)
    (step : String → SortState → Except String SortState)
    (hstep : ∀ d st st2, step d st = .ok st2 → SortInv g ts st →
      SortInv g ts st2 ∧ (∃ new, st2.result = st.result ++ new) ∧ d ∈ st2.visited) :
    ∀ ds st st2, visitFold step ds st = .ok st2 → SortInv g ts st →
      SortInv g ts st2 ∧ (∃ new, st2.result = st.result ++ new) ∧ ∀ d ∈ ds, d ∈ st2.visited := by
  intro ds
  induction ds with
  | nil =>
    intro st st2 h hinv
    simp only [visitFold, Except.ok.injEq] at h
    subst h
    exact ⟨hinv, ⟨[], by simp⟩, fun d hd => absurd hd (by simp)⟩
  | cons d rest ih =>
    intro st st2 h hinv
    simp only [visitFold] at h
    split at h
    · exact absurd h (by simp)
    · next st1 hs =>
      obtain ⟨inv1, ⟨n1, e1⟩, hd⟩ := hstep d st st1 hs hinv
      obtain ⟨inv2, ⟨n2, e2⟩, hrest⟩ := ih st1 st2 h inv1
      refine ⟨inv2, ⟨n1 ++ n2, by rw [e2, e1, List.append_assoc]⟩, ?_⟩
      intro x hx
      rcases List.mem_cons.mp hx with rfl | hx2
      · rw [inv2.1, e2, ← inv1.1]
        exact List.mem_append_left n2 hd
      · exact hrest x hx2

theorem sortVisit_ok_inv (g : DependencyGraph) (ts : List String) :
    ∀ (fuel : Nat) (name : String) (inP : List String) (st st2 : SortState),
      sortVisit g ts fuel name inP st = .ok st2 → SortInv g ts st →
      SortInv g ts st2 ∧ (∃ new, st2.result = st.result ++ new) ∧ name ∈ st2.visited := by
  intro fuel
  induction fuel with
  | zero =>
    intro name inP st st2 h
    exact absurd h (by simp [sortVisit])
  | succ fuel ih =>
    intro name inP st st2 h hinv
    rw [sortVisit] at h
    by_cases h1 : name ∈ st.visited
    · rw [if_pos h1] at h
      simp only [Except.ok.injEq] at h
      subst h
      exact ⟨hinv, ⟨[], by simp⟩, h1⟩
    · rw [if_neg h1] at h
      by_cases h2 : name ∈ inP
      · rw [if_pos h2] at h
        exact absurd h (by simp)
      · rw [if_neg h2] at h
        split at h
        · exact absurd h (by simp)
        · next stm heq =>
          simp only [Except.ok.injEq] at h
          obtain ⟨invm, ⟨newm, em⟩, hmem⟩ :=
            visitFold_ok_inv g ts _ (fun d st st' hok hi => ih d (name :: inP) st st' hok hi)
              _ _ _ heq hinv
          subst h
          refine ⟨⟨by simp [invm.1], ?_⟩, ⟨newm ++ [name], by simp [em]⟩, by simp⟩
          refine GoodList.snoc invm.2 ?_
          intro dep hdep hts
          rw [← invm.1]
          refine hmem dep ?_
          exact List.mem_filter.mpr ⟨hdep, by simpa using hts⟩

theorem visitFold_error_lift (step : String → SortState → Except String SortState)
    (C : String → Prop) :
    ∀ (ds : List String), (∀ d ∈ ds, ∀ st e, step d st = .error e → C e) →
    ∀ st e, visitFold step ds st = .error e → C e := by
  intro ds
  induction ds with
  | nil => intro _ st e h; exact absurd h (by simp [visitFold])
  | cons d rest ih =>
    intro hstep st e h
    simp only [visitFold] at h
    split at h
    · next e' hs =>
      injection h with h'
      exact h' ▸ hstep d (by simp) st e' hs
    · next st1 hs => exact ih (fun x hx => hstep x (by simp [hx])) st1 e h

theorem circ_msg_ne_fuel (name : String) :
    ("circular dependency detected involving type: " ++ name) ≠ "out of fuel" := by
  intro h
  have h2 := congrArg String.length h
  rw [String.length_append] at h2
  have h3 : ("circular dependency detected involving type: " : String).length = 45 := rfl
  have h4 : ("out of fuel" : String).length = 11 := rfl
  rw [h3, h4] at h2
  omega

theorem remCount_cons : ∀ (ts : List String), ts.Nodup → ∀ (name : String) (inP : List String),
    name ∈ ts → name ∉ inP → remCount ts (name :: inP) + 1 = remCount ts inP := by
  intro ts
  induction ts with
  | nil => intro _ name inP h; exact absurd h (by simp)
  | cons t rest ih =>
    intro hnd name inP hmem hnin
    have hnd2 := List.nodup_cons.mp hnd
    rcases List.mem_cons.mp hmem with rfl | hmem2
    · have hc1 : decide (name ∉ name :: inP) = false := by simp
      have hc2 : decide (name ∉ inP) = true := by simpa using hnin
      have hfeq : rest.filter (fun x => decide (x ∉ name :: inP))
          = rest.filter (fun x => decide (x ∉ inP)) := by
        apply List.filter_congr
        intro x hx
        have hxt : x ≠ name := fun hh => hnd2.1 (hh ▸ hx)
        simp [hxt]
      unfold remCount
      rw [List.filter_cons, List.filter_cons, hc1, hc2, hfeq]
      simp
    · have htn : t ≠ name := fun hh => hnd2.1 (hh ▸ hmem2)
      have ihe := ih hnd2.2 name inP hmem2 hnin
      unfold remCount at ihe ⊢
      rw [List.filter_cons, List.filter_cons]
      have hsame : (decide (t ∉ name :: inP)) = decide (t ∉ inP) := by simp [htn]
      rw [hsame]
      by_cases hdec : decide (t ∉ inP) = true
      · rw [if_pos hdec, if_pos hdec]
        simp only [List.length_cons]
        omega
      · rw [if_neg hdec, if_neg hdec]
        exact ihe

theorem sortVisit_error (g : DependencyGraph) (ts : List String) :
    ∀ (fuel : Nat) (name : String) (inP : List String) (st : SortState) (e : String),
    sortVisit g ts fuel name inP st = .error e → Chain g (name :: inP) →
    HasCycle g ∨ e = "out of fuel" := by
  intro fuel
  induction fuel with
  | zero =>
    intro name inP st e h _
    rw [sortVisit] at h
    injection h with h'
    exact Or.inr h'.symm
  | succ fuel ih =>
    intro name inP st e h hch
    rw [sortVisit] at h
    by_cases h1 : name ∈ st.visited
    · rw [if_pos h1] at h; exact absurd h (by simp)
    · rw [if_neg h1] at h
      by_cases h2 : name ∈ inP
      · exact Or.inl ⟨name, chain_path g inP name hch name h2⟩
      · rw [if_neg h2] at h
        split at h
        · next e' heq =>
          injection h with h'
          subst h'
          refine visitFold_error_lift _ (fun e2 => HasCycle g ∨ e2 = "out of fuel") _ ?_ _ _ heq
          intro d hd st' e'' hs
          have hedge : Edge g name d := (List.mem_filter.mp hd).1
          refine ih d (name :: inP) st' e'' hs ?_
          simp only [Chain]
          exact ⟨hedge, hch⟩
        · exact absurd h (by simp)

theorem sortVisit_no_fuel (g : DependencyGraph) (ts : List String) (hnd : ts.Nodup) :
    ∀ (fuel : Nat) (name : String) (inP : List String) (st : SortState) (e : String),
    remCount ts inP + 1 ≤ fuel → name ∈ ts →
    sortVisit g ts fuel name inP st = .error e → e ≠ "out of fuel" := by
  intro fuel
  induction fuel with
  | zero =>
    intro name inP st e hle _ _
    exact absurd hle (by omega)
  | succ fuel ih =>
    intro name inP st e hle hmem h
    rw [sortVisit] at h
    by_cases h1 : name ∈ st.visited
    · rw [if_pos h1] at h; exact absurd h (by simp)
    · rw [if_neg h1] at h
      by_cases h2 : name ∈ inP
      · rw [if_pos h2] at h
        injection h with h'
        exact h' ▸ circ_msg_ne_fuel name
      · rw [if_neg h2] at h
        split at h
        · next e' heq =>
          injection h with h'
          subst h'
          refine visitFold_error_lift _ (fun e2 => e2 ≠ "out of fuel") _ ?_ _ _ heq
          intro d hd st' e'' hs
          have hdts : d ∈ ts := by
            have := (List.mem_filter.mp hd).2
            simpa using this
          refine ih d (name :: inP) st' e'' ?_ hdts hs
          have hrc := remCount_cons ts hnd name inP hmem h2
          omega
        · exact absurd h (by simp)

theorem sortVisit_congr (g g2 : DependencyGraph) (ts : List String)
    (hg : ∀ x, GetDependencies g2 x = GetDependencies g x) :
    ∀ (fuel : Nat) (name : String) (inP : List String) (st : SortState),
    sortVisit g2 ts fuel name inP st = sortVisit g ts fuel name inP st := by
  intro fuel
  induction fuel with
  | zero => intro name inP st; rw [sortVisit, sortVisit]
  | succ fuel ih =>
    intro name inP st
    rw [sortVisit, sortVisit]
    have hstep : (fun dep st2 => sortVisit g2 ts fuel dep (name :: inP) st2)
        = fun dep st2 => sortVisit g ts fuel dep (name :: inP) st2 :=
      funext fun dep => funext fun st2 => ih dep (name :: inP) st2
    rw [hg name, hstep]

theorem topSort_ok_spec (g : DependencyGraph) (types res : List String)
    (h : TopologicalSort g types = .ok res) :
    GoodList g types.dedup res ∧ ∀ t ∈ types, t ∈ res := by
  unfold TopologicalSort at h
  dsimp only at h
  split at h
  · exact absurd h (by simp)
  · next st heq =>
    injection h with h'
    subst h'
    obtain ⟨inv, -, hmem⟩ := visitFold_ok_inv g types.dedup _
      (fun d st st2 hok hi => sortVisit_ok_inv g types.dedup _ d [] st st2 hok hi)
      _ _ _ heq ⟨rfl, GoodList.nil⟩
    refine ⟨inv.2, fun t ht => ?_⟩
    rw [← inv.1]
    exact hmem t ht

theorem topSort_acyclic_ok (g : DependencyGraph) (types : List String) (hac : ¬HasCycle g) :
    ∃ res, TopologicalSort g types = .ok res := by
  cases hres : TopologicalSort g types with
  | ok res => exact ⟨res, rfl⟩
  | error e =>
    exfalso
    unfold TopologicalSort at hres
    dsimp only at hres
    split at hres
    · next e' heq =>
      refine visitFold_error_lift _ (fun _ => False) _ ?_ _ _ heq
      intro t ht st e2 hs
      rcases sortVisit_error g types.dedup _ t [] st e2 hs (by simp [Chain]) with hcyc | hfuel
      · exact hac hcyc
      · refine sortVisit_no_fuel g types.dedup (List.nodup_dedup types) _ t [] st e2 ?_
          (List.mem_dedup.mpr ht) hs hfuel
        have hb : remCount types.dedup [] ≤ types.dedup.length :=
          List.length_filter_le _ _
        omega
    · exact absurd hres (by simp)

theorem topSort_congr (g g2 : DependencyGraph) (types : List String)
    (hg : ∀ x, GetDependencies g2 x = GetDependencies g x) :
    TopologicalSort g2 types = TopologicalSort g types := by
  unfold TopologicalSort
  dsimp only
  have hstep : (fun t st => sortVisit g2 types.dedup (types.dedup.length + 1) t [] st)
      = fun t st => sortVisit g types.dedup (types.dedup.length + 1) t [] st :=
    funext fun t => funext fun st => sortVisit_congr g g2 types.dedup hg _ t [] st
  rw [hstep]

/-- C5: for every acyclic dependency graph and every caller-supplied
name sequence, `TopologicalSort` succeeds; its output contains every
supplied name and places each dependency lying in the supplied set
strictly before the record depending on it (names outside the set are
ignored); and the output is determined by the dependency function and
the supplied sequence alone. -/
theorem C5_topological_sort_correct (g : DependencyGraph) (types : List String)
    (hac : ¬HasCycle g) :
    (∃ res, TopologicalSort g types = .ok res) ∧
    (∀ res, TopologicalSort g types = .ok res →
      (∀ t ∈ types, t ∈ res) ∧
      ∀ pre n suf, res = pre ++ n :: suf →
        ∀ dep ∈ GetDependencies g n, dep ∈ types → dep ∈ pre) ∧
    (∀ g2, (∀ x, GetDependencies g2 x = GetDependencies g x) →
      TopologicalSort g2 types = TopologicalSort g types) := by
  refine ⟨topSort_acyclic_ok g types hac, ?_, fun g2 hg => topSort_congr g g2 types hg⟩
  intro res hres
  obtain ⟨hgood, hmem⟩ := topSort_ok_spec g types res hres
  refine ⟨hmem, ?_⟩
  intro pre n suf hsplit dep hdep hts
  exact goodList_split g types.dedup hgood pre n suf hsplit dep hdep (List.mem_dedup.mpr hts)

/-- Witness for C5: the empty graph with two supplied names is
acyclic, and the sort succeeds on it. -/
theorem C5_topological_sort_correct_witness :
    ¬HasCycle (⟨[]⟩ : DependencyGraph) ∧
    (∃ res, TopologicalSort ⟨[]⟩ ["A", "B"] = .ok res) := by
  have hac : ¬HasCycle (⟨[]⟩ : DependencyGraph) := by
    rintro ⟨n, p⟩
    cases p with
    | single e => exact absurd e (by simp [Edge, GetDependencies, assocGet])
    | cons e _ => exact absurd e (by simp [Edge, GetDependencies, assocGet])
  exact ⟨hac, (C5_topological_sort_correct ⟨[]⟩ ["A", "B"] hac).1⟩

/-! ## Cycle-detection completeness and the generator pipeline (C1) -/

theorem gpath_closed (g : DependencyGraph) {V : List String}
    (hC : ∀ v ∈ V, ∀ d ∈ GetDependencies g v, d ∈ V) {a b : String}
    (p : GPath g a b) : a ∈ V → b ∈ V := by
  induction p with
  | single e => exact fun ha => hC _ ha _ e
  | cons e _ ih => exact fun ha => ih (hC _ ha _ e)

theorem detectFold_none_inv (g : DependencyGraph)
    (step : String → List String → Except String (Option (List String) × List String))
    (hstep : ∀ d V V2, step d V = .ok (none, V2) → DetInv g V →
      DetInv g V2 ∧ (∃ new, V2 = V ++ new) ∧ d ∈ V2) :
    ∀ ds V V2, detectFold step ds V = .ok (none, V2) → DetInv g V →
      DetInv g V2 ∧ (∃ new, V2 = V ++ new) ∧ ∀ d ∈ ds, d ∈ V2 := by
  intro ds
  induction ds with
  | nil =>
    intro V V2 h hinv
    simp only [detectFold, Except.ok.injEq, Prod.mk.injEq] at h
    obtain ⟨-, h2⟩ := h
    subst h2
    exact ⟨hinv, ⟨[], by simp⟩, fun d hd => absurd hd (by simp)⟩
  | cons d rest ih =>
    intro V V2 h hinv
    simp only [detectFold] at h
    split at h
    · exact absurd h (by simp)
    · exact absurd h (by simp)
    · next V' hs =>
      obtain ⟨inv1, ⟨n1, e1⟩, hd⟩ := hstep d V V' hs hinv
      obtain ⟨inv2, ⟨n2, e2⟩, hrest⟩ := ih V' V2 h inv1
      refine ⟨inv2, ⟨n1 ++ n2, by rw [e2, e1, List.append_assoc]⟩, ?_⟩
      intro x hx
      rcases List.mem_cons.mp hx with rfl | hx2
      · rw [e2]
        exact List.mem_append_left n2 hd
      · exact hrest x hx2

theorem detectVisit_none (g : DependencyGraph) :
    ∀ (fuel : Nat) (name : String) (path V V2 : List String),
    detectVisit g fuel name path V = .ok (none, V2) → DetInv g V →
    DetInv g V2 ∧ (∃ new, V2 = V ++ new) ∧ name ∈ V2 := by
  intro fuel
  induction fuel with
  | zero =>
    intro name path V V2 h
    exact absurd h (by simp [detectVisit])
  | succ fuel ih =>
    intro name path V V2 h hinv
    rw [detectVisit] at h
    by_cases hp : name ∈ path
    · rw [if_pos hp] at h
      exact absurd h (by simp)
    · rw [if_neg hp] at h
      by_cases hv : name ∈ V
      · rw [if_pos hv] at h
        simp only [Except.ok.injEq, Prod.mk.injEq] at h
        obtain ⟨-, h2⟩ := h
        subst h2
        exact ⟨hinv, ⟨[], by simp⟩, hv⟩
      · rw [if_neg hv] at h
        split at h
        · exact absurd h (by simp)
        · exact absurd h (by simp)
        · next Vm heq =>
          simp only [Except.ok.injEq, Prod.mk.injEq] at h
          obtain ⟨-, h2⟩ := h
          subst h2
          obtain ⟨invm, ⟨newm, em⟩, hdeps⟩ :=
            detectFold_none_inv g _ (fun d W W2 hok hi => ih d (path ++ [name]) W W2 hok hi)
              _ _ _ heq hinv
          refine ⟨⟨?_, ?_⟩, ⟨newm ++ [name], by simp [em]⟩, by simp⟩
          · intro v hvm d hd
            rcases List.mem_append.mp hvm with hv1 | hv1
            · exact List.mem_append_left _ (invm.1 v hv1 d hd)
            · have hveq : v = name := by simpa using hv1
              subst hveq
              exact List.mem_append_left _ (hdeps d hd)
          · intro v hvm p
            rcases List.mem_append.mp hvm with hv1 | hv1
            · exact invm.2 v hv1 p
            · have hveq : v = name := by simpa using hv1
              subst hveq
              cases p with
              | single e => exact invm.2 v (hdeps v e) (GPath.single e)
              | cons e p2 =>
                have hbm : _ ∈ Vm := hdeps _ e
                have hnm : v ∈ Vm := gpath_closed g invm.1 p2 hbm
                exact invm.2 v hnm (GPath.cons e p2)

theorem detect_none_acyclic (g : DependencyGraph) (h : DetectCircular g = .ok none) :
    ¬HasCycle g := by
  unfold DetectCircular at h
  split at h
  · exact absurd h (by simp)
  · next c vfin heq =>
    simp only [Except.ok.injEq] at h
    subst h
    obtain ⟨inv, -, hkeys⟩ := detectFold_none_inv g _
      (fun d V V2 hok hi => detectVisit_none g _ d [] V V2 hok hi) _ _ _ heq
      ⟨by simp, by simp⟩
    rintro ⟨n, p⟩
    have hdep : ∃ d, d ∈ GetDependencies g n := by
      cases p with
      | single e => exact ⟨_, e⟩
      | cons e _ => exact ⟨_, e⟩
    obtain ⟨d, hd⟩ := hdep
    have hkey : n ∈ g.dependencies.map Prod.fst := by
      unfold GetDependencies assocGet at hd
      cases hf : List.find? (fun p => p.1 = n) g.dependencies with
      | none =>
        rw [hf] at hd
        simp at hd
      | some pr =>
        have hpr := List.find?_some hf
        have hm := List.mem_of_find?_eq_some hf
        have hpn : pr.1 = n := by simpa using hpr
        exact hpn ▸ List.mem_map_of_mem Prod.fst hm
    exact inv.2 n (hkeys n hkey) p

/-- C1: whenever the reference graph computed by dependency discovery
and auto-resolution has a cycle — the discovery derives every record
with its inline preference forced off, so an inline preference cannot
hide an edge — the run returns an error and writes no document. -/
theorem C1_cycle_blocks_write (schemaID : String) (allStructs : List StructInfo)
    (findMap : List (String × StructInfo)) (st : ResolveState)
    (hst : resolveStage schemaID allStructs findMap (genBuildFuel allStructs findMap)
      (findMap.length + 1) = .ok st)
    (hcyc : HasCycle st.graph) :
    ((generate schemaID allStructs findMap).written = [] ∧
      ((generate schemaID allStructs findMap).err).isSome = true) ∧
    ∀ (b : Builder) (si : StructInfo) (fuel : Nat) (i : Bool),
      BuildSchemaWithRefs b { si with inline := i } fuel = BuildSchemaWithRefs b si fuel := by
  constructor
  · unfold generate
    by_cases he : allStructs.isEmpty
    · rw [if_pos he]
      exact ⟨rfl, rfl⟩
    · rw [if_neg he]
      dsimp only
      rw [hst]
      dsimp only
      cases hdc : DetectCircular st.graph with
      | error e => exact ⟨rfl, rfl⟩
      | ok c =>
        cases c with
        | some cyc => exact ⟨rfl, rfl⟩
        | none => exact absurd hcyc (detect_none_acyclic st.graph hdc)
  · intro b si fuel i
    cases si
    rfl

/-- Witness for C1: the concrete cyclic pair \x7bA→B, B→A\x7d with `A`
preferring inline; the run errors and writes nothing. -/
theorem C1_cycle_blocks_write_witness :
    (resolveStage "" [exStructAInl, exStructB] []
        (genBuildFuel [exStructAInl, exStructB] []) 1 = .ok exStC1) ∧
    HasCycle exStC1.graph ∧ exGenC1.written = [] ∧ exGenC1.err.isSome = true := by
  have hst : resolveStage "" [exStructAInl, exStructB] []
      (genBuildFuel [exStructAInl, exStructB] []) 1 = .ok exStC1 := rfl
  have he1 : Edge exStC1.graph "A" "B" := by
    show "B" ∈ GetDependencies exStC1.graph "A"
    decide
  have he2 : Edge exStC1.graph "B" "A" := by
    show "A" ∈ GetDependencies exStC1.graph "B"
    decide
  have hcyc : HasCycle exStC1.graph := ⟨"A", GPath.cons he1 (GPath.single he2)⟩
  obtain ⟨⟨h1, h2⟩, -⟩ := C1_cycle_blocks_write "" [exStructAInl, exStructB] [] exStC1 hst hcyc
  exact ⟨hst, hcyc, h1, h2⟩

/-! ## Failed auto-resolution lookups (C6) -/

theorem assocGet_set_ne {α : Type} (m : List (String × α)) (k k2 : String) (v : α)
    (hne : k ≠ k2) : assocGet (assocSet m k v) k2 = assocGet m k2 := by
  have hmap : ∀ (l : List (String × α)),
      assocGet (l.map (fun p => if p.1 = k then (k, v) else p)) k2 = assocGet l k2 := by
    intro l
    induction l with
    | nil => rfl
    | cons p rest ih =>
      unfold assocGet at ih ⊢
      simp only [List.map_cons, List.find?_cons]
      by_cases hp : p.1 = k
      · rw [if_pos hp]
        have hk2 : (decide ((k, v).1 = k2)) = false := by simpa using hne
        have hp2 : (decide (p.1 = k2)) = false := by
          simpa using fun h => hne (hp.symm.trans h)
        rw [hk2, hp2]
        exact ih
      · rw [if_neg hp]
        cases hh : (decide (p.1 = k2)) with
        | true => rfl
        | false => exact ih
  unfold assocSet
  by_cases hf : (List.find? (fun p => p.1 = k) m).isSome = true
  · rw [if_pos hf]
    exact hmap m
  · rw [if_neg hf]
    unfold assocGet
    cases hm : List.find? (fun p => decide (p.1 = k2)) m with
    | some pr => simp [List.find?_append, hm]
    | none => simp [List.find?_append, hm, List.find?, hne]

theorem resolveFold_fields (ref : String) : ∀ (nrs : List String) (acc : ResolveState × Bool),
    (nrs.foldl (resolveNewRef ref) acc).1.structMap = acc.1.structMap ∧
    (nrs.foldl (resolveNewRef ref) acc).1.resolved = acc.1.resolved ∧
    (nrs.foldl (resolveNewRef ref) acc).1.warnings = acc.1.warnings := by
  intro nrs
  induction nrs with
  | nil => intro acc; exact ⟨rfl, rfl, rfl⟩
  | cons nr rest ih =>
    intro acc
    rw [List.foldl_cons]
    have h := ih (resolveNewRef ref acc nr)
    have hstep : (resolveNewRef ref acc nr).1.structMap = acc.1.structMap ∧
        (resolveNewRef ref acc nr).1.resolved = acc.1.resolved ∧
        (resolveNewRef ref acc nr).1.warnings = acc.1.warnings := by
      unfold resolveNewRef
      by_cases hmem : nr ∈ acc.1.allRefs
      · rw [if_pos hmem]
        exact ⟨rfl, rfl, rfl⟩
      · rw [if_neg hmem]
        exact ⟨rfl, rfl, rfl⟩
    exact ⟨h.1.trans hstep.1, h.2.1.trans hstep.2.1, h.2.2.trans hstep.2.2⟩

theorem resolvePass_warn_mono (b : Builder) (bfuel : Nat) (find : String → Option StructInfo) :
    ∀ (refs : List String) (st : ResolveState) (fn : Bool),
    ∃ more, (resolvePass b bfuel find refs st fn).1.warnings = st.warnings ++ more := by
  intro refs
  induction refs with
  | nil => intro st fn; exact ⟨[], by simp [resolvePass]⟩
  | cons ref rest ih =>
    intro st fn
    rw [resolvePass]
    by_cases h1 : (assocGet st.structMap ref).isSome = true
    · rw [if_pos h1]
      exact ih st fn
    · rw [if_neg h1]
      by_cases h2 : ref ∈ st.resolved
      · rw [if_pos h2]
        exact ih st fn
      · rw [if_neg h2]
        dsimp only
        by_cases h3 : containsDot ref = true
        · rw [if_pos h3]
          exact ih _ fn
        · rw [if_neg h3]
          cases hfind : find ref with
          | none =>
            obtain ⟨m, hm⟩ := ih { st with resolved := st.resolved ++ [ref], warnings := st.warnings ++ [warnNotFound ref] } fn
            exact ⟨[warnNotFound ref] ++ m, by rw [← List.append_assoc]; exact hm⟩
          | some refStruct =>
            dsimp only
            cases hb : BuildSchemaWithRefs b refStruct bfuel with
            | error e =>
              obtain ⟨m, hm⟩ := ih { st with structMap := assocSet st.structMap ref refStruct, allStructs := st.allStructs ++ [refStruct], resolved := st.resolved ++ [ref], warnings := st.warnings ++ [warnNoRefs ref] } fn
              exact ⟨[warnNoRefs ref] ++ m, by rw [← List.append_assoc]; exact hm⟩
            | ok pr =>
              obtain ⟨doc, newRefs⟩ := pr
              dsimp only
              obtain ⟨m, hm⟩ := ih (newRefs.foldl (resolveNewRef ref) ({ st with structMap := assocSet st.structMap ref refStruct, allStructs := st.allStructs ++ [refStruct], resolved := st.resolved ++ [ref] }, fn)).1 (newRefs.foldl (resolveNewRef ref) ({ st with structMap := assocSet st.structMap ref refStruct, allStructs := st.allStructs ++ [refStruct], resolved := st.resolved ++ [ref] }, fn)).2
              refine ⟨m, ?_⟩
              rw [hm, (resolveFold_fields ref newRefs _).2.2]

theorem resolveLoop_warn_mono (b : Builder) (bfuel : Nat) (find : String → Option StructInfo) :
    ∀ (n : Nat) (st : ResolveState),
    ∃ more, (resolveLoop b bfuel find n st).warnings = st.warnings ++ more := by
  intro n
  induction n with
  | zero => intro st; exact ⟨[], by simp [resolveLoop]⟩
  | succ n ih =>
    intro st
    rw [resolveLoop]
    obtain ⟨m1, hm1⟩ := resolvePass_warn_mono b bfuel find st.allRefs st false
    by_cases hfn : (resolvePass b bfuel find st.allRefs st false).2 = true
    · rw [if_pos hfn]
      obtain ⟨m2, hm2⟩ := ih (resolvePass b bfuel find st.allRefs st false).1
      exact ⟨m1 ++ m2, by rw [hm2, hm1, List.append_assoc]⟩
    · rw [if_neg hfn]
      exact ⟨m1, hm1⟩

theorem resolvePass_emits (b : Builder) (bfuel : Nat) (find : String → Option StructInfo) :
    ∀ (refs : List String) (st : ResolveState) (fn : Bool) (ref : String),
    ref ∈ refs → assocGet st.structMap ref = none → ref ∉ st.resolved →
    containsDot ref = false → find ref = none →
    warnNotFound ref ∈ (resolvePass b bfuel find refs st fn).1.warnings := by
  intro refs
  induction refs with
  | nil => intro st fn ref h; exact absurd h (by simp)
  | cons r rest ih =>
    intro st fn ref hmem h1 h2 h3 h4
    rw [resolvePass]
    by_cases hr : r = ref
    · subst hr
      rw [if_neg (by simp [h1]), if_neg h2]
      dsimp only
      rw [if_neg (by simp [h3]), h4]
      obtain ⟨m, hm⟩ := resolvePass_warn_mono b bfuel find rest { st with resolved := st.resolved ++ [r], warnings := st.warnings ++ [warnNotFound r] } fn
      rw [hm]
      refine List.mem_append_left m ?_
      show warnNotFound r ∈ st.warnings ++ [warnNotFound r]
      simp
    · have hmem2 : ref ∈ rest := by
        rcases List.mem_cons.mp hmem with h | h
        · exact absurd h.symm hr
        · exact h
      have hres2 : ref ∉ st.resolved ++ [r] := by
        intro hc
        rcases List.mem_append.mp hc with hc1 | hc1
        · exact h2 hc1
        · exact hr (List.mem_singleton.mp hc1).symm
      by_cases c1 : (assocGet st.structMap r).isSome = true
      · rw [if_pos c1]
        exact ih st fn ref hmem2 h1 h2 h3 h4
      · rw [if_neg c1]
        by_cases c2 : r ∈ st.resolved
        · rw [if_pos c2]
          exact ih st fn ref hmem2 h1 h2 h3 h4
        · rw [if_neg c2]
          dsimp only
          by_cases c3 : containsDot r = true
          · rw [if_pos c3]
            exact ih _ fn ref hmem2 h1 hres2 h3 h4
          · rw [if_neg c3]
            cases hfind : find r with
            | none => exact ih _ fn ref hmem2 h1 hres2 h3 h4
            | some rs =>
              dsimp only
              cases hb : BuildSchemaWithRefs b rs bfuel with
              | error e =>
                refine ih _ fn ref hmem2 ?_ hres2 h3 h4
                show assocGet (assocSet st.structMap r rs) ref = none
                rw [assocGet_set_ne st.structMap r ref rs hr]
                exact h1
              | ok pr =>
                obtain ⟨doc, newRefs⟩ := pr
                dsimp only
                refine ih _ _ ref hmem2 ?_ ?_ h3 h4
                · rw [(resolveFold_fields r newRefs _).1]
                  show assocGet (assocSet st.structMap r rs) ref = none
                  rw [assocGet_set_ne st.structMap r ref rs hr]
                  exact h1
                · rw [(resolveFold_fields r newRefs _).2.1]
                  exact hres2

theorem buildField_unresolved_inline
    (fuel : Nat) (field : FieldInfo) (rt : Option (List String)) (ctx : InlineContext)
    (hk : field.type.underlying.kind = .struct)
    (hex : field.type.underlying.isExported = true)
    (hpk : field.type.underlying.packageName = "")
    (htag : getTag field.tags "schema" = none)
    (hpi : ctx.parentInline = true)
    (hsm : assocGet ctx.structMap field.type.underlying.name = none) :
    BuildFieldSchema (fuel + 1) field rt (some ctx)
      = .ok (applyFieldDoc field (JSchema.base { typ := "object" }), rt) := by
  unfold BuildFieldSchema BuildFieldSchemaWith
  rw [htag]
  unfold BuildFieldSchemaMainWith
  dsimp only
  rw [hk]
  dsimp only
  rw [if_pos ⟨hex, hpk⟩, if_pos (show shouldInlineStruct (some ctx) = true by
    simpa [shouldInlineStruct] using hpi)]
  rw [inlineStructSchema, hsm]

theorem buildField_ref_link
    (expand : String → InlineContext → Except String (Option JSchema))
    (field : FieldInfo) (rt : List String) (ctx : Option InlineContext)
    (hk : field.type.underlying.kind = .struct)
    (hex : field.type.underlying.isExported = true)
    (hpk : field.type.underlying.packageName = "")
    (htag : getTag field.tags "schema" = none)
    (hsi : shouldInlineStruct ctx = false) :
    BuildFieldSchemaWith expand field (some rt) ctx
      = .ok (applyFieldDoc field
          (JSchema.base { ref := GetRefPath field.type.underlying.name }),
        some (addRef rt field.type.underlying.name)) := by
  unfold BuildFieldSchemaWith
  rw [htag]
  unfold BuildFieldSchemaMainWith
  dsimp only
  rw [hk]
  dsimp only
  rw [if_pos ⟨hex, hpk⟩, if_neg (by simp [hsi])]

/-- C6 counterexample: in the reference-mode run `exGenC6` the failed
lookup warns and the run proceeds, but the property emitted for the
referencing field carries a link (`$ref`) rather than being a bare
object with no link. -/
theorem C6_failed_lookup_counterexample :
    exGenC6.warnings = [warnNotFound "B"] ∧ exGenC6.err = none ∧
    (writtenProp exGenC6 "A" "b").core.ref = "b.schema.json" ∧
    (writtenProp exGenC6 "A" "b").core.typ ≠ "object" :=
  ⟨rfl, rfl, rfl, by decide⟩

/-- C6 (amended): a failed auto-resolution lookup of a dotless
reference emits the warning and the pass continues (the loop never
aborts on it); the referencing field's emitted property is an opaque
bare object only when the field is derived in inline mode — in
reference mode it is a bare link to the unresolved type's schema file,
as the concrete run `exGenC6` shows, while the inline-mode run
`exGenC6inl` emits the bare object. -/
theorem C6_failed_lookup_warns_and_proceeds
    (b : Builder) (bfuel : Nat) (find : String → Option StructInfo) (n : Nat)
    (st0 : ResolveState) (ref : String)
    (h1 : ref ∈ st0.allRefs) (h2 : assocGet st0.structMap ref = none)
    (h3 : ref ∉ st0.resolved) (h4 : containsDot ref = false) (h5 : find ref = none) :
    warnNotFound ref ∈ (resolveLoop b bfuel find (n + 1) st0).warnings ∧
    (∀ (fuel : Nat) (field : FieldInfo) (rt : Option (List String)) (ctx : InlineContext),
      field.type.underlying.kind = .struct → field.type.underlying.isExported = true →
      field.type.underlying.packageName = "" → getTag field.tags "schema" = none →
      ctx.parentInline = true → assocGet ctx.structMap field.type.underlying.name = none →
      BuildFieldSchema (fuel + 1) field rt (some ctx)
        = .ok (applyFieldDoc field (JSchema.base { typ := "object" }), rt)) ∧
    exGenC6.err = none ∧ exGenC6.written.map Prod.fst = ["A"] ∧
    writtenProp exGenC6 "A" "b" = JSchema.base { ref := GetRefPath "B" } ∧
    exGenC6inl.err = none ∧
    writtenProp exGenC6inl "A" "b" = JSchema.base { typ := "object" } := by
  refine ⟨?_, ?_, rfl, rfl, rfl, rfl, rfl⟩
  · rw [resolveLoop]
    have hw := resolvePass_emits b bfuel find st0.allRefs st0 false ref h1 h2 h3 h4 h5
    by_cases hfn : (resolvePass b bfuel find st0.allRefs st0 false).2 = true
    · rw [if_pos hfn]
      obtain ⟨m, hm⟩ := resolveLoop_warn_mono b bfuel find n
        (resolvePass b bfuel find st0.allRefs st0 false).1
      rw [hm]
      exact List.mem_append_left m hw
    · rw [if_neg hfn]
      exact hw
  · intro fuel field rt ctx hk hex hpk htag hpi hsm
    exact buildField_unresolved_inline fuel field rt ctx hk hex hpk htag hpi hsm

/-- Witness for C6 at the concrete unresolved reference `B`. -/
theorem C6_failed_lookup_warns_and_proceeds_witness :
    ("B" ∈ exSt0C6.allRefs ∧ containsDot "B" = false) ∧
    warnNotFound "B" ∈ (resolveLoop ⟨"", none⟩ 0 (fun _ => none) 1 exSt0C6).warnings :=
  ⟨⟨by decide, rfl⟩,
    (C6_failed_lookup_warns_and_proceeds ⟨"", none⟩ 0 (fun _ => none) 0 exSt0C6 "B"
      (by decide) rfl (by decide) rfl rfl).1⟩

end JsonSchemaGen
